import Mathlib

/-!
Verification development for the workflow canonicalization and content-addressing
engine of the WebRPA workflow repository service.

The JavaScript source under scrutiny is the module holding
validateWorkflowContent, normalizeWorkflowForHash, normalizeNodeData,
findNodeType, calculateWorkflowHash and sanitizeWorkflow.

Modelling conventions (shallow embedding of the JavaScript semantics):
- JSON-decoded JavaScript values are modelled by the inductive type JVal.
  An absent object property and an explicitly-undefined property both read
  back as JVal.undef, exactly as property access behaves in JavaScript.
- Numbers are modelled as integers (the documents the claims exercise carry
  no fractional numbers); JSON.stringify of an integer is its decimal form.
- String length counts characters (Unicode scalar values).  JavaScript
  counts UTF-16 code units; the two agree on all characters below U+10000,
  which covers every string the claims exercise.
- localeCompare is modelled as ordering by Unicode scalar values.  The host's
  collation may merge canonically-equivalent strings; the theorems below do
  not depend on that corner.  Calling localeCompare on a non-string (which
  would throw in JavaScript) is modelled as comparing an empty key; every
  theorem touching the sort restricts node types to strings, which is the
  region where the model and the engine agree.
- Array.prototype.sort with a comparator is stable, so its output is the
  unique sorted-and-stable rearrangement; List.insertionSort computes that
  same rearrangement and is used as the model of the sort.
- JSON.stringify omits object properties whose value is undefined and prints
  undefined array elements as null; ser below reproduces that.
-/

inductive JVal where
  | undef
  | null
  | bool (b : Bool)
  | num (n : Int)
  | str (s : String)
  | arr (elems : List JVal)
  | obj (fields : List (String × JVal))

mutual

def jbeq : JVal → JVal → Bool
  | .undef, .undef => true
  | .null, .null => true
  | .bool a, .bool b => a == b
  | .num a, .num b => a == b
  | .str a, .str b => a == b
  | .arr a, .arr b => jbeqElems a b
  | .obj a, .obj b => jbeqFields a b
  | _, _ => false

def jbeqElems : List JVal → List JVal → Bool
  | [], [] => true
  | a :: as, b :: bs => jbeq a b && jbeqElems as bs
  | _, _ => false

def jbeqFields : List (String × JVal) → List (String × JVal) → Bool
  | [], [] => true
  | (k, v) :: as, (k2, v2) :: bs => k == k2 && jbeq v v2 && jbeqFields as bs
  | _, _ => false

end

mutual

theorem jbeq_refl : ∀ v : JVal, jbeq v v = true
  | .undef | .null => rfl
  | .bool b => by simp [jbeq]
  | .num n => by simp [jbeq]
  | .str s => by simp [jbeq]
  | .arr xs => by simp [jbeq, jbeqElems_refl xs]
  | .obj fs => by simp [jbeq, jbeqFields_refl fs]

theorem jbeqElems_refl : ∀ l : List JVal, jbeqElems l l = true
  | [] => rfl
  | x :: xs => by simp [jbeqElems, jbeq_refl x, jbeqElems_refl xs]

theorem jbeqFields_refl : ∀ l : List (String × JVal), jbeqFields l l = true
  | [] => rfl
  | (k, v) :: fs => by simp [jbeqFields, jbeq_refl v, jbeqFields_refl fs]

end

mutual

theorem jbeq_eq : ∀ a b : JVal, jbeq a b = true → a = b
  | .undef, .undef, _ => rfl
  | .null, .null, _ => rfl
  | .bool a, .bool b, h => by
      have : a = b := by simpa [jbeq] using h
      exact this ▸ rfl
  | .num a, .num b, h => by
      have : a = b := by simpa [jbeq] using h
      exact this ▸ rfl
  | .str a, .str b, h => by
      have : a = b := by simpa [jbeq] using h
      exact this ▸ rfl
  | .arr a, .arr b, h => by
      have : a = b := jbeqElems_eq a b (by simpa [jbeq] using h)
      exact this ▸ rfl
  | .obj a, .obj b, h => by
      have : a = b := jbeqFields_eq a b (by simpa [jbeq] using h)
      exact this ▸ rfl

theorem jbeqElems_eq : ∀ a b : List JVal, jbeqElems a b = true → a = b
  | [], [], _ => rfl
  | x :: xs, y :: ys, h => by
      simp only [jbeqElems, Bool.and_eq_true] at h
      rw [jbeq_eq x y h.1, jbeqElems_eq xs ys h.2]
  | [], _ :: _, h => by simp [jbeqElems] at h
  | _ :: _, [], h => by simp [jbeqElems] at h

theorem jbeqFields_eq : ∀ a b : List (String × JVal), jbeqFields a b = true → a = b
  | [], [], _ => rfl
  | (k, v) :: xs, (k2, v2) :: ys, h => by
      simp only [jbeqFields, Bool.and_eq_true] at h
      have hk : k = k2 := by simpa using h.1.1
      rw [hk, jbeq_eq v v2 h.1.2, jbeqFields_eq xs ys h.2]
  | [], _ :: _, h => by simp [jbeqFields] at h
  | _ :: _, [], h => by simp [jbeqFields] at h

end

instance : DecidableEq JVal := fun a b =>
  if h : jbeq a b = true then .isTrue (jbeq_eq a b h)
  else .isFalse (fun he => h (he ▸ jbeq_refl a))

/-- JavaScript truthiness of a JSON-decodable value. -/
def truthy : JVal → Bool
  | .undef => false
  | .null => false
  | .bool b => b
  | .num n => n != 0
  | .str s => s != ""
  | .arr _ => true
  | .obj _ => true

/-- Whether the JavaScript typeof operator answers object (null and arrays included). -/
def typeofIsObj : JVal → Bool
  | .null => true
  | .arr _ => true
  | .obj _ => true
  | _ => false

def isArr : JVal → Bool
  | .arr _ => true
  | _ => false

def isStr : JVal → Bool
  | .str _ => true
  | _ => false

def isUndef : JVal → Bool
  | .undef => true
  | _ => false

/-- Property access v.k; any value without such a property reads undefined.
Field lists are treated as maps with distinct keys, as produced by JSON parsing. -/
def getField (v : JVal) (k : String) : JVal :=
  match v with
  | .obj fs =>
    match fs.find? (fun kv => kv.1 == k) with
    | some kv => kv.2
    | none => .undef
  | _ => JVal.undef

/-- The in operator on an object (property presence). -/
def hasField (v : JVal) (k : String) : Bool :=
  match v with
  | .obj fs => fs.any (fun kv => kv.1 == k)
  | _ => false

/-- The JavaScript a or-else b short-circuit (a || b). -/
def jsOr (a b : JVal) : JVal :=
  if truthy a then a else b

/-- The element list of an array value; empty for anything else. -/
def arrElems : JVal → List JVal
  | .arr xs => xs
  | _ => []

def chQ : Char := Char.ofNat 34
def chLB : Char := Char.ofNat 91
def chRB : Char := Char.ofNat 93
def chOB : Char := Char.ofNat 123
def chCB : Char := Char.ofNat 125

/-- Decimal digits of a positive natural, most significant first; fuel-driven
so that it is structurally recursive and kernel-reducible. -/
def natCharsAux : Nat → Nat → List Char
  | 0, _ => []
  | fuel+1, n => if n = 0 then [] else natCharsAux fuel (n / 10) ++ [Nat.digitChar (n % 10)]

/-- Decimal form of a natural number, as JavaScript prints it. -/
def natChars (n : Nat) : List Char :=
  if n = 0 then ['0'] else natCharsAux n n

/-- Decimal form of an integer, as JavaScript prints it. -/
def intChars : Int → List Char
  | .ofNat n => natChars n
  | .negSucc n => '-' :: natChars (n+1)

def natDisplay (n : Nat) : String :=
  String.mk (natChars n)

def hexChar (n : Nat) : Char :=
  if n < 10 then Nat.digitChar n else Char.ofNat (87 + n)

/-- How JSON.stringify escapes one character inside a string literal. -/
def escChar (c : Char) : List Char :=
  if c = chQ then ['\\', chQ]
  else if c = '\\' then ['\\', '\\']
  else if c = '\n' then ['\\', 'n']
  else if c = '\r' then ['\\', 'r']
  else if c = '\t' then ['\\', 't']
  else if c = Char.ofNat 8 then ['\\', 'b']
  else if c = Char.ofNat 12 then ['\\', 'f']
  else if c.toNat < 32 then ['\\', 'u', '0', '0', hexChar (c.toNat / 16), hexChar (c.toNat % 16)]
  else [c]

def escape : List Char → List Char
  | [] => []
  | c :: cs => escChar c ++ escape cs

/-- A JSON string literal, quotes included. -/
def serStr (s : String) : List Char :=
  chQ :: escape s.data ++ [chQ]

def joinComma : List (List Char) → List Char
  | [] => []
  | [x] => x
  | x :: xs => x ++ ',' :: joinComma xs

mutual

/-- JSON.stringify, producing the character list of the output.  Object
properties whose value is undefined are omitted; an undefined array element
prints as null (the undef equation below covers exactly that position, the
only place the engine ever stringifies an undefined). -/
def ser : JVal → List Char
  | .undef => ['n', 'u', 'l', 'l']
  | .null => ['n', 'u', 'l', 'l']
  | .bool b => if b then ['t', 'r', 'u', 'e'] else ['f', 'a', 'l', 's', 'e']
  | .num n => intChars n
  | .str s => serStr s
  | .arr xs => chLB :: joinComma (serElemPieces xs) ++ [chRB]
  | .obj fs => chOB :: joinComma (serFieldPieces fs) ++ [chCB]

def serElemPieces : List JVal → List (List Char)
  | [] => []
  | x :: xs => ser x :: serElemPieces xs

def serFieldPieces : List (String × JVal) → List (List Char)
  | [] => []
  | (k, v) :: fs =>
    if isUndef v then serFieldPieces fs
    else (serStr k ++ ':' :: ser v) :: serFieldPieces fs

end

def jsonStringify (v : JVal) : String :=
  String.mk (ser v)

/-- The length JavaScript reports for JSON.stringify output. -/
def serLen (v : JVal) : Nat :=
  (ser v).length

mutual

/-- The String() coercion used by template literals and Array.prototype.join. -/
def jsDisplay : JVal → String
  | .undef => "undefined"
  | .null => "null"
  | .bool true => "true"
  | .bool false => "false"
  | .num n => String.mk (intChars n)
  | .str s => s
  | .arr xs => String.mk (jsDisplayElems xs)
  | .obj _ => "[object Object]"

def jsDisplayElems : List JVal → List Char
  | [] => []
  | [x] => jsDisplayElem x
  | x :: xs => jsDisplayElem x ++ ',' :: jsDisplayElems xs

def jsDisplayElem : JVal → List Char
  | .undef => []
  | .null => []
  | .bool b => if b then ['t', 'r', 'u', 'e'] else ['f', 'a', 'l', 's', 'e']
  | .num n => intChars n
  | .str s => s.data
  | .arr xs => jsDisplayElems xs
  | .obj _ => ('[' :: String.toList "object Object") ++ [chRB]

end

/-- Object.entries: own enumerable entries of an object, an array (indices as
keys), or a string (positions mapped to one-character strings); empty for the
remaining primitives.  The engine only reaches this on truthy values. -/
def entriesOf : JVal → List (String × JVal)
  | .obj fs => fs
  | .arr xs => xs.enum.map (fun p => (natDisplay p.1, p.2))
  | .str s => s.data.enum.map (fun p => (natDisplay p.1, .str (String.mk [p.2])))
  | _ => []

/-- Joins string pieces with a separator, as Array.prototype.join does. -/
def joinSep (sep : String) : List String → String
  | [] => ""
  | [x] => x
  | x :: xs => x ++ sep ++ joinSep sep xs

/-- First-occurrence-order deduplication with a seen accumulator, as
spreading a Set does: keeps the first occurrence of each value, in order. -/
def dedupFirstAux (seen : List JVal) : List JVal → List JVal
  | [] => []
  | a :: as =>
    if seen.contains a then dedupFirstAux seen as
    else a :: dedupFirstAux (a :: seen) as

def dedupFirst (l : List JVal) : List JVal := dedupFirstAux [] l

/-- The result of validateWorkflowContent: the valid true object with its
nodeCount, or the valid false object with its error string. -/
inductive ValidationResult where
  | pass (nodeCount : Nat)
  | fail (error : String)
deriving DecidableEq

/-- The closed vocabulary of module types the validator knows (the
validModuleTypes set in the source, transcribed verbatim). -/
def validModuleTypes : List String :=
  ["open_page", "click_element", "input_text", "get_element_info", "wait", "wait_element",
   "close_page", "refresh_page", "go_back", "go_forward", "handle_dialog",
   "select_dropdown", "set_checkbox", "drag_element", "scroll_page", "upload_file",
   "set_variable", "json_parse", "base64", "random_number", "get_time", "download_file",
   "save_image", "screenshot", "read_excel", "hover_element", "string_concat",
   "regex_extract", "string_replace", "string_split", "string_join", "string_trim",
   "string_case", "string_substring",
   "list_operation", "list_get", "list_length",
   "dict_operation", "dict_get", "dict_keys",
   "table_add_row", "table_add_column", "table_set_cell", "table_get_cell",
   "table_delete_row", "table_clear", "table_export",
   "db_connect", "db_query", "db_execute", "db_insert", "db_update", "db_delete", "db_close",
   "api_request", "send_email",
   "ai_chat", "ai_vision",
   "ocr_captcha", "slider_captcha",
   "condition", "loop", "foreach", "break_loop", "continue_loop", "scheduled_task",
   "subflow",
   "print_log", "play_sound", "play_music", "input_prompt", "text_to_speech",
   "js_script", "set_clipboard", "get_clipboard", "keyboard_action", "real_mouse_scroll",
   "group", "note"]

/-- The React Flow wrapper node types (the validReactFlowTypes set). -/
def validReactFlowTypes : List String :=
  ["moduleNode", "groupNode", "noteNode"]

/-- Set.has on a set of strings: true only for an equal string value. -/
def strSetHas (set : List String) : JVal → Bool
  | .str s => set.contains s
  | _ => false

/-- The module type the per-node loop resolves: data.moduleType when data and
data.moduleType are truthy, else a truthy type, else nothing. -/
def moduleTypeOf (node : JVal) : Option JVal :=
  if truthy (getField node ("data")) && truthy (getField (getField node ("data")) ("moduleType")) then
    some (getField (getField node ("data")) ("moduleType"))
  else if truthy (getField node ("type")) then
    some (getField node ("type"))
  else
    none

/-- The per-node pass of validateWorkflowContent (source loop over nodes with
index i): either the first structural error, or the pair of the count of
nodes with a known module type and the list of unknown module types in visit
order.  A node whose structural checks fail aborts the whole pass, so the
counting of a node can soundly be placed after the node's own checks. -/
def checkNodes : List JVal → Nat → Except String (Nat × List JVal)
  | [], _ => .ok (0, [])
  | node :: rest, i =>
    if !(truthy node && typeofIsObj node) then
      .error ("节点 #" ++ natDisplay (i+1) ++ " 格式无效")
    else if !(truthy (getField node ("id")) && isStr (getField node ("id"))) then
      .error ("节点 #" ++ natDisplay (i+1) ++ " 缺少有效的 id 字段")
    else
      match moduleTypeOf node with
      | none => .error ("节点 \"" ++ jsDisplay (getField node ("id")) ++ "\" 缺少模块类型")
      | some mt =>
        if truthy (getField node ("position")) && !typeofIsObj (getField node ("position")) then
          .error ("节点 \"" ++ jsDisplay (getField node ("id")) ++ "\" 的 position 格式无效")
        else if 50000 < serLen (jsOr (getField node ("data")) (.obj [])) then
          .error ("节点 \"" ++ jsDisplay (getField node ("id")) ++ "\" 的配置数据过大（超过50KB）")
        else
          match checkNodes rest (i+1) with
          | .error e => .error e
          | .ok (vc, inv) =>
            if strSetHas validModuleTypes mt then .ok (vc + 1, inv)
            else if strSetHas validReactFlowTypes mt then .ok (vc, inv)
            else .ok (vc, mt :: inv)

/-- The edge pass of validateWorkflowContent (source loop over edges). -/
def checkEdges : List JVal → List JVal → Nat → Except String Unit
  | [], _, _ => .ok ()
  | edge :: rest, ids, i =>
    if !(truthy edge && typeofIsObj edge) then
      .error ("连线 #" ++ natDisplay (i+1) ++ " 格式无效")
    else if !(truthy (getField edge ("source")) && isStr (getField edge ("source"))) then
      .error ("连线 #" ++ natDisplay (i+1) ++ " 缺少有效的 source 字段")
    else if !(truthy (getField edge ("target")) && isStr (getField edge ("target"))) then
      .error ("连线 #" ++ natDisplay (i+1) ++ " 缺少有效的 target 字段")
    else if !(ids.contains (getField edge ("source"))) then
      .error ("连线引用了不存在的源节点: " ++ jsDisplay (getField edge ("source")))
    else if !(ids.contains (getField edge ("target"))) then
      .error ("连线引用了不存在的目标节点: " ++ jsDisplay (getField edge ("target")))
    else
      checkEdges rest ids (i+1)

/-- The variables pass of validateWorkflowContent. -/
def checkVariables : List JVal → Nat → Except String Unit
  | [], _ => .ok ()
  | v :: rest, i =>
    if !(truthy v && typeofIsObj v) then
      .error ("变量 #" ++ natDisplay (i+1) ++ " 格式无效")
    else if !(truthy (getField v ("name")) && isStr (getField v ("name"))) then
      .error ("变量 #" ++ natDisplay (i+1) ++ " 缺少有效的 name 字段")
    else
      checkVariables rest (i+1)

/-- The message built for a non-empty list of unknown module types. -/
def invalidTypesMessage (inv : List JVal) : String :=
  let uniq := dedupFirst inv
  if 3 < uniq.length then
    "包含 " ++ natDisplay uniq.length ++ " 个不支持的模块类型，这可能不是 Web RPA 的工作流文件"
  else
    "包含不支持的模块类型: " ++ joinSep (", ") ((uniq.take 3).map jsDisplay) ++
      (if 3 < uniq.length then "..." else "")

/-- validateWorkflowContent, translated check for check from the source. -/
def validateWorkflowContent (content : JVal) : ValidationResult :=
  if !(truthy content && typeofIsObj content) then
    .fail ("无效的JSON格式，请上传正确的工作流文件")
  else if isArr content then
    .fail ("工作流格式错误：应为对象而非数组")
  else if !hasField content ("nodes") then
    .fail ("不是有效的工作流文件：缺少 nodes 字段")
  else if !hasField content ("edges") then
    .fail ("不是有效的工作流文件：缺少 edges 字段")
  else if !isArr (getField content ("nodes")) then
    .fail ("工作流格式错误：nodes 必须是数组")
  else if !isArr (getField content ("edges")) then
    .fail ("工作流格式错误：edges 必须是数组")
  else
    let ns := arrElems (getField content ("nodes"))
    if ns.length = 0 then .fail ("工作流至少需要一个节点")
    else if 500 < ns.length then .fail ("工作流节点数量不能超过500个")
    else
      match checkNodes ns 0 with
      | .error e => .fail e
      | .ok (vc, inv) =>
        if vc = 0 then
          .fail ("这不是 Web RPA 的工作流文件，未找到任何有效的模块类型")
        else if inv ≠ [] then
          .fail (invalidTypesMessage inv)
        else
          match checkEdges (arrElems (getField content ("edges"))) (ns.map (fun n => getField n ("id"))) 0 with
          | .error e => .fail e
          | .ok _ =>
            match
              (if getField content ("variables") ≠ .undef then
                (if !isArr (getField content ("variables")) then
                  .error ("变量字段格式错误：应为数组")
                else checkVariables (arrElems (getField content ("variables"))) 0)
              else .ok ()) with
            | .error e => .fail e
            | .ok _ =>
              if 500000 < serLen content then
                .fail ("工作流内容过大（超过500KB），请精简后再发布")
              else
                .pass ns.length

/-- The cosmetic keys normalizeNodeData drops. -/
def ignoreKeys : List String :=
  ["label", "name", "description", "x", "y", "position", "id"]

/-- Whether normalizeNodeData keeps a value (not undefined, null or the empty
string; note that false and 0 are kept). -/
def keepVal : JVal → Bool
  | .undef => false
  | .null => false
  | .str s => s != ""
  | _ => true

def filterEntries (es : List (String × JVal)) : List (String × JVal) :=
  es.filter (fun kv => !(ignoreKeys.contains kv.1) && keepVal kv.2)

/-- normalizeNodeData from the source: rebuild the data mapping without the
cosmetic keys and without empty values, preserving entry order. -/
def normalizeNodeData (data : JVal) : JVal :=
  .obj (filterEntries (entriesOf data))

/-- The data the canonicalizer reads for a node: data, else config, else
an empty object (node.data or node.config or braces in the source). -/
def dataEff (node : JVal) : JVal :=
  jsOr (getField node ("data")) (jsOr (getField node ("config")) (.obj []))

/-- One canonical node as normalizeWorkflowForHash builds it: the raw type
property together with the normalized data. -/
def canonNode (node : JVal) : JVal :=
  .obj [("type", getField node ("type")), ("data", normalizeNodeData (dataEff node))]

/-- findNodeType from the source: the type of the first node carrying the id,
with unknown as the fallback for a missing node or a falsy type. -/
def findNodeType (nodes : List JVal) (nodeId : JVal) : JVal :=
  match nodes.find? (fun n => getField n ("id") == nodeId) with
  | some node => jsOr (getField node ("type")) (.str "unknown")
  | none => .str "unknown"

/-- One canonical edge as normalizeWorkflowForHash builds it. -/
def canonEdge (nodes : List JVal) (edge : JVal) : JVal :=
  .obj [("sourceType", findNodeType nodes (getField edge ("source"))),
        ("targetType", findNodeType nodes (getField edge ("target"))),
        ("sourceHandle", jsOr (getField edge ("sourceHandle")) .null),
        ("targetHandle", jsOr (getField edge ("targetHandle")) .null)]

/-- Lexicographic comparison of character lists by scalar value; the model of
String.prototype.localeCompare (see the header note). -/
def lcmp : List Char → List Char → Ordering
  | [], [] => .eq
  | [], _ :: _ => .lt
  | _ :: _, [] => .gt
  | a :: as, b :: bs =>
    if a < b then .lt else if b < a then .gt else lcmp as bs

/-- The string the node comparator fetches from a type property: the string
itself, the empty string for a falsy value (type or the empty string in the
source).  A truthy non-string would make the engine throw; the theorems about
the sort restrict types to strings, where this equation is exact. -/
def typeKey : JVal → List Char
  | .str s => s.data
  | _ => []

/-- The node comparator of normalizeWorkflowForHash: by type, then by the
JSON serialization of the normalized data. -/
def cmpNode (a b : JVal) : Ordering :=
  match lcmp (typeKey (getField a ("type"))) (typeKey (getField b ("type"))) with
  | .eq => lcmp (ser (getField a ("data"))) (ser (getField b ("data")))
  | o => o

/-- The edge comparator of normalizeWorkflowForHash: by the JSON serialization
of the whole canonical edge. -/
def cmpEdge (a b : JVal) : Ordering :=
  lcmp (ser a) (ser b)

def nodeR (a b : JVal) : Prop := cmpNode a b ≠ .gt

def edgeR (a b : JVal) : Prop := cmpEdge a b ≠ .gt

instance : DecidableRel nodeR := fun a b => by unfold nodeR; infer_instance

instance : DecidableRel edgeR := fun a b => by unfold edgeR; infer_instance

/-- The node list the canonicalizer walks: content.nodes or the empty array. -/
def nodesOf (content : JVal) : List JVal :=
  arrElems (jsOr (getField content ("nodes")) (.arr []))

/-- The edge list the canonicalizer walks: content.edges or the empty array. -/
def edgesOf (content : JVal) : List JVal :=
  arrElems (jsOr (getField content ("edges")) (.arr []))

/-- normalizeWorkflowForHash from the source: canonical nodes sorted by the
node comparator and canonical edges sorted by the edge comparator, bundled as
the object later serialized and hashed. -/
def normalizeWorkflowForHash (content : JVal) : JVal :=
  .obj [("nodes", .arr (List.insertionSort nodeR ((nodesOf content).map canonNode))),
        ("edges", .arr (List.insertionSort edgeR ((edgesOf content).map (canonEdge (nodesOf content)))))]

/-- The byte string calculateWorkflowHash feeds to sha256: the deterministic
serialization of the normalized workflow. -/
def hashInput (content : JVal) : String :=
  jsonStringify (normalizeWorkflowForHash content)

/-- calculateWorkflowHash from the source, parametric in the cryptographic
digest (sha256 hex lives in the host's crypto library, outside this module):
the digest of the canonical serialization. -/
def calculateWorkflowHash (sha256hex : String → String) (content : JVal) : String :=
  sha256hex (hashInput content)

/-- sanitizeWorkflow from the source: returns the submitted content itself. -/
def sanitizeWorkflow (content : JVal) : JVal :=
  content

/-- A workflow document with the given node and edge arrays. -/
def mkDoc (ns es : List JVal) : JVal :=
  .obj [("nodes", .arr ns), ("edges", .arr es)]

/-- Two-key lexicographic combination, the shape both comparators share. -/
def lex2 (x1 x2 y1 y2 : List Char) : Ordering :=
  match lcmp x1 y1 with
  | .eq => lcmp x2 y2
  | o => o

mutual

/-- No undefined anywhere inside the value.  JSON-decoded documents always
satisfy this: the JSON grammar has no undefined. -/
def undefFree : JVal → Bool
  | .undef => false
  | .arr xs => undefFreeElems xs
  | .obj fs => undefFreeFields fs
  | _ => true

def undefFreeElems : List JVal → Bool
  | [] => true
  | x :: xs => undefFree x && undefFreeElems xs

def undefFreeFields : List (String × JVal) → Bool
  | [] => true
  | (_, v) :: fs => undefFree v && undefFreeFields fs

end

mutual

/-- Replaces every undefined by its serialization behaviour: object properties
holding undefined disappear, any other undefined becomes null.  ser does not
distinguish a value from its stripped form. -/
def stripUndef : JVal → JVal
  | .undef => .null
  | .null => .null
  | .bool b => .bool b
  | .num n => .num n
  | .str s => .str s
  | .arr xs => .arr (stripUndefElems xs)
  | .obj fs => .obj (stripUndefFields fs)

def stripUndefElems : List JVal → List JVal
  | [] => []
  | x :: xs => stripUndef x :: stripUndefElems xs

def stripUndefFields : List (String × JVal) → List (String × JVal)
  | [] => []
  | (k, v) :: fs =>
    if isUndef v then stripUndefFields fs
    else (k, stripUndef v) :: stripUndefFields fs

end

/-- A continuation that cannot extend a decimal literal: empty or starting
with a non-digit.  Every position following a serialized value inside a JSON
document satisfies this (comma, closing bracket, closing brace, or the end). -/
def tailOK (s : List Char) : Prop :=
  ∀ c, s.head? = some c → c.isDigit = false

/-- Reads a decimal digit string back as a number (proof device for the
injectivity of the decimal printer). -/
def charsVal (cs : List Char) : Nat :=
  cs.foldl (fun acc c => acc * 10 + (c.toNat - 48)) 0

/-- The effective step kind exactly as the specification words it:
data.moduleType if present, else type.  This definition follows the
specification, not the source; the canonicalizer theorems compare the source
behaviour against it. -/
def effectiveStepKindSpec (node : JVal) : JVal :=
  if getField (getField node ("data")) ("moduleType") ≠ .undef then
    getField (getField node ("data")) ("moduleType")
  else
    getField node ("type")

/-- Entry lists that agree except possibly in the values at cosmetic keys:
same keys in the same order, equal values outside ignoreKeys. -/
def entriesRel : List (String × JVal) → List (String × JVal) → Prop
  | [], [] => True
  | (k, v) :: es, (k2, v2) :: es2 => k2 = k ∧ (k ∈ ignoreKeys ∨ v2 = v) ∧ entriesRel es es2
  | _, _ => False

/-- Node n2 is a cosmetic variant of node n: same type, id renamed through f,
and data entries equal outside the cosmetic keys.  Top-level properties other
than type, id, data and config are unconstrained because the engine never
reads them. -/
def cosmeticRel (f : String → String) (n n2 : JVal) : Prop :=
  getField n2 ("type") = getField n ("type") ∧
  (∃ s, getField n ("id") = .str s ∧ getField n2 ("id") = .str (f s)) ∧
  entriesRel (entriesOf (dataEff n)) (entriesOf (dataEff n2))

/-- Edge e2 is edge e with its endpoints renamed through f and its handles
kept. -/
def edgeRel (f : String → String) (e e2 : JVal) : Prop :=
  (∃ s, getField e ("source") = .str s ∧ getField e2 ("source") = .str (f s)) ∧
  (∃ s, getField e ("target") = .str s ∧ getField e2 ("target") = .str (f s)) ∧
  getField e2 ("sourceHandle") = getField e ("sourceHandle") ∧
  getField e2 ("targetHandle") = getField e ("targetHandle")

/-- The structural per-node checks of the validator loop, bundled. -/
def perNodeOk (node : JVal) : Bool :=
  truthy node && typeofIsObj node &&
  truthy (getField node ("id")) && isStr (getField node ("id")) &&
  !(truthy (getField node ("position")) && !typeofIsObj (getField node ("position"))) &&
  decide (serLen (jsOr (getField node ("data")) (.obj [])) ≤ 50000)

/-- Concrete documents used by the counterexamples and witnesses. -/
def cexTypeless : JVal :=
  .obj [("id", .str "a"), ("data", .obj [("moduleType", .str "open_page")])]

def cexEmptyType : JVal :=
  .obj [("id", .str "b"), ("type", .str ""), ("data", .obj [("moduleType", .str "open_page")])]

def cexDupA : JVal := .obj [("id", .str "a"), ("type", .str "open_page")]

def cexDupB : JVal := .obj [("id", .str "a"), ("type", .str "click_element")]

def cexSelfEdge : JVal := .obj [("source", .str "a"), ("target", .str "a")]

def cexWrappedNode : JVal :=
  .obj [("id", .str "n1"), ("type", .str "moduleNode"), ("data", .obj [("moduleType", .str "open_page")])]

def cexWrappedDoc : JVal :=
  mkDoc [cexWrappedNode] [.obj [("source", .str "n1"), ("target", .str "n1")]]

def cexUnknownDoc : JVal :=
  mkDoc [.obj [("id", .str "a"), ("type", .str "open_page")],
         .obj [("id", .str "b"), ("type", .str "totally_unknown_kind")]] []

def cexEmptyValDoc : JVal :=
  mkDoc [.obj [("id", .str "n1"), ("type", .str "open_page"), ("data", .obj [("url", .str "")])]] []

def cexNullValDoc : JVal :=
  mkDoc [.obj [("id", .str "n1"), ("type", .str "open_page"), ("data", .obj [("url", .null)])]] []

def okNode : JVal := .obj [("id", .str "a"), ("type", .str "open_page")]

def doc500 : JVal := mkDoc (List.replicate 500 okNode) []

def doc501 : JVal := mkDoc (List.replicate 501 okNode) []

/-- A single node whose data serializes to 8 + length of s characters. -/
def dataNode (s : String) : JVal :=
  .obj [("id", .str "d1"), ("type", .str "open_page"), ("data", .obj [("u", .str s)])]

/-- Characters that JSON.stringify passes through unescaped. -/
def onlyPlain (s : String) : Bool :=
  s.data.all (fun c => escChar c == [c])

def bigA (n : Nat) : String := String.mk (List.replicate n 'a')

/-- A valid two-node document with duplicate node ids (the nodes differ). -/
def c8Doc (t : String) : JVal :=
  mkDoc [.obj [("id", .str "a"), ("type", .str t)],
         .obj [("id", .str "a"), ("type", .str t), ("data", .obj [("url", .str "x")])]] []

def c10Doc : JVal := mkDoc [.obj [("id", .str "a"), ("type", .str "moduleNode")]] []

def c4NodeA : JVal :=
  .obj [("id", .str "n1"), ("type", .str "open_page"),
        ("data", .obj [("url", .str "https://x"), ("label", .str "Home")]),
        ("position", .obj [("x", .str "1")])]

def c4NodeB : JVal :=
  .obj [("id", .str "n1x"), ("type", .str "open_page"),
        ("data", .obj [("url", .str "https://x"), ("label", .str "Renamed")])]

def c4Edge : JVal := .obj [("source", .str "n1"), ("target", .str "n1")]

def c4EdgeB : JVal := .obj [("source", .str "n1x"), ("target", .str "n1x")]

/-- An injective renaming: append a character to every id. -/
def c4Rename (s : String) : String := s ++ "x"

deriving instance DecidableEq for Except

/-- The tail a joined piece list contributes after its first piece. -/
def joinTail : List (List Char) → List Char
  | [] => []
  | ps => ',' :: joinComma ps

/-- Discriminator for the grammatical class a serialized value belongs to
(null, boolean, number, string, array, object); undefined shares the class of
null because ser prints both as null. -/
def headKind : JVal → Nat
  | .undef => 0
  | .null => 0
  | .bool _ => 1
  | .num _ => 2
  | .str _ => 3
  | .arr _ => 4
  | .obj _ => 5

/-- The class a serialized value can be recognized from by its first
character. -/
def charKind (c : Char) : Nat :=
  if c = 'n' then 0
  else if c = 't' ∨ c = 'f' then 1
  else if c.isDigit = true ∨ c = '-' then 2
  else if c = chQ then 3
  else if c = chLB then 4
  else 5

/-! End of the definition layer; theorems follow. -/

/-! ## General lemmas about the comparison and sorting machinery -/

theorem lcmp_self : ∀ a : List Char, lcmp a a = .eq
  | [] => rfl
  | c :: cs => by simp [lcmp, lcmp_self cs]

theorem lcmp_nil_ne_gt (c : List Char) : lcmp [] c ≠ .gt := by
  cases c <;> simp [lcmp]

theorem eq_of_lcmp_eq : ∀ {a b : List Char}, lcmp a b = .eq → a = b
  | [], [], _ => rfl
  | [], _ :: _, h => by simp [lcmp] at h
  | _ :: _, [], h => by simp [lcmp] at h
  | a :: as, b :: bs, h => by
    by_cases h1 : a < b
    · simp [lcmp, h1] at h
    · by_cases h2 : b < a
      · simp [lcmp, h1, h2] at h
      · have hab : a = b := le_antisymm (not_lt.1 h2) (not_lt.1 h1)
        have hs : as = bs := eq_of_lcmp_eq (by simpa [lcmp, h1, h2] using h)
        rw [hab, hs]

theorem lcmp_gt_iff_lt : ∀ a b : List Char, lcmp a b = .gt ↔ lcmp b a = .lt
  | [], [] => by simp [lcmp]
  | [], _ :: _ => by simp [lcmp]
  | _ :: _, [] => by simp [lcmp]
  | a :: as, b :: bs => by
    by_cases h1 : a < b
    · have h2 : ¬ b < a := lt_asymm h1
      simp [lcmp, h1, h2]
    · by_cases h2 : b < a
      · simp [lcmp, h1, h2]
      · simpa [lcmp, h1, h2] using lcmp_gt_iff_lt as bs

theorem lcmp_le_trans : ∀ {a b c : List Char}, lcmp a b ≠ .gt → lcmp b c ≠ .gt → lcmp a c ≠ .gt
  | [], _, c, _, _ => lcmp_nil_ne_gt c
  | _ :: _, [], _, h1, _ => absurd (by simp [lcmp]) h1
  | _ :: _, _ :: _, [], _, h2 => absurd (by simp [lcmp]) h2
  | a :: as, b :: bs, c :: cs, h1, h2 => by
    by_cases hab : a < b
    · by_cases hbc : b < c
      · simp [lcmp, lt_trans hab hbc]
      · by_cases hcb : c < b
        · exact absurd (by simp [lcmp, hbc, hcb]) h2
        · have : b = c := le_antisymm (not_lt.1 hcb) (not_lt.1 hbc)
          subst this
          simp [lcmp, hab]
    · by_cases hba : b < a
      · exact absurd (by simp [lcmp, hab, hba]) h1
      · have : a = b := le_antisymm (not_lt.1 hba) (not_lt.1 hab)
        subst this
        by_cases hbc : a < c
        · simp [lcmp, hbc]
        · by_cases hcb : c < a
          · exact absurd (by simp [lcmp, hbc, hcb]) h2
          · have h1' : lcmp as bs ≠ .gt := by simpa [lcmp, hab, hba] using h1
            have h2' : lcmp bs cs ≠ .gt := by simpa [lcmp, hbc, hcb] using h2
            simpa [lcmp, hbc, hcb] using lcmp_le_trans h1' h2'

theorem lcmp_le_total (a b : List Char) : lcmp a b ≠ .gt ∨ lcmp b a ≠ .gt := by
  by_cases h : lcmp a b = .gt
  · right
    rw [(lcmp_gt_iff_lt a b).1 h]
    simp
  · left
    exact h
theorem lcmp_lt_trans {a b c : List Char} (h1 : lcmp a b = .lt) (h2 : lcmp b c = .lt) :
    lcmp a c = .lt := by
  have hac := @lcmp_le_trans a b c (by simp [h1]) (by simp [h2])
  rcases h : lcmp a c with _ | _ | _
  · rfl
  · have he : a = c := eq_of_lcmp_eq h
    subst he
    have hgt : lcmp a b = .gt := (lcmp_gt_iff_lt a b).2 h2
    simp [h1] at hgt
  · exact absurd h hac

theorem lex2_le_trans {x1 x2 y1 y2 z1 z2 : List Char}
    (h1 : lex2 x1 x2 y1 y2 ≠ .gt) (h2 : lex2 y1 y2 z1 z2 ≠ .gt) :
    lex2 x1 x2 z1 z2 ≠ .gt := by
  unfold lex2 at *
  rcases hxy : lcmp x1 y1 with _ | _ | _ <;> rcases hyz : lcmp y1 z1 with _ | _ | _
  · simp [lcmp_lt_trans hxy hyz]
  · rw [← eq_of_lcmp_eq hyz, hxy]
    simp
  · simp [hyz] at h2
  · rw [eq_of_lcmp_eq hxy, hyz]
    simp
  · simp [hxy] at h1
    simp [hyz] at h2
    rw [eq_of_lcmp_eq hxy, eq_of_lcmp_eq hyz, lcmp_self]
    exact lcmp_le_trans h1 h2
  · simp [hyz] at h2
  · simp [hxy] at h1
  · simp [hxy] at h1
  · simp [hxy] at h1

theorem lex2_gt_iff_lt (x1 x2 y1 y2 : List Char) :
    lex2 x1 x2 y1 y2 = .gt ↔ lex2 y1 y2 x1 x2 = .lt := by
  unfold lex2
  rcases hxy : lcmp x1 y1 with _ | _ | _
  · have hyx : lcmp y1 x1 = .gt := (lcmp_gt_iff_lt y1 x1).2 hxy
    rw [hyx]
    simp
  · rw [eq_of_lcmp_eq hxy, lcmp_self]
    exact lcmp_gt_iff_lt x2 y2
  · rw [(lcmp_gt_iff_lt x1 y1).1 hxy]
    simp

theorem lex2_le_total (x1 x2 y1 y2 : List Char) :
    lex2 x1 x2 y1 y2 ≠ .gt ∨ lex2 y1 y2 x1 x2 ≠ .gt := by
  by_cases h : lex2 x1 x2 y1 y2 = .gt
  · right
    rw [(lex2_gt_iff_lt x1 x2 y1 y2).1 h]
    simp
  · left
    exact h

theorem cmpNode_eq_lex2 (a b : JVal) :
    cmpNode a b = lex2 (typeKey (getField a ("type"))) (ser (getField a ("data")))
      (typeKey (getField b ("type"))) (ser (getField b ("data"))) := rfl

instance : IsTrans JVal nodeR := by
  constructor
  intro a b c h1 h2
  unfold nodeR at *
  rw [cmpNode_eq_lex2] at *
  exact lex2_le_trans h1 h2

instance : IsTotal JVal nodeR := by
  constructor
  intro a b
  unfold nodeR
  rw [cmpNode_eq_lex2, cmpNode_eq_lex2]
  exact lex2_le_total _ _ _ _

instance : IsTrans JVal edgeR := by
  constructor
  intro a b c h1 h2
  unfold edgeR cmpEdge at *
  exact lcmp_le_trans h1 h2

instance : IsTotal JVal edgeR := by
  constructor
  intro a b
  unfold edgeR cmpEdge
  exact lcmp_le_total _ _

/-- Two sorted lists that are permutations of one another have the same
image under any function that identifies ties of the (total pre)order.
This is the uniqueness of the sorted arrangement up to tie content, the
backbone of the permutation-invariance arguments. -/
theorem map_eq_of_perm_of_sorted {α β : Type} [DecidableEq α]
    (le : α → α → Prop) [DecidableRel le] (f : α → β) :
    ∀ l₁ l₂ : List α, l₁.Perm l₂ → l₁.Pairwise le → l₂.Pairwise le →
      (∀ a ∈ l₁, ∀ b ∈ l₁, le a b → le b a → f a = f b) →
      l₁.map f = l₂.map f
  | [], l₂, hp, _, _, _ => by rw [← hp.symm.eq_nil]
  | a :: t₁, [], hp, _, _, _ => by simpa using hp.eq_nil
  | a :: t₁, b :: t₂, hp, hs₁, hs₂, ht => by
    by_cases hab : a = b
    · subst hab
      have htl : t₁.Perm t₂ := hp.cons_inv
      have hrec := map_eq_of_perm_of_sorted le f t₁ t₂ htl
        (List.pairwise_cons.1 hs₁).2 (List.pairwise_cons.1 hs₂).2
        (fun x hx y hy => ht x (List.mem_cons_of_mem a hx) y (List.mem_cons_of_mem a hy))
      simp [hrec]
    · have hbmem : b ∈ t₁ := by
        have hb : b ∈ a :: t₁ := hp.symm.subset (List.mem_cons_self b t₂)
        rcases List.mem_cons.1 hb with h | h
        · exact absurd h.symm hab
        · exact h
      have hamem : a ∈ t₂ := by
        have ha : a ∈ b :: t₂ := hp.subset (List.mem_cons_self a t₁)
        rcases List.mem_cons.1 ha with h | h
        · exact absurd h hab
        · exact h
      have hleab : le a b := (List.pairwise_cons.1 hs₁).1 b hbmem
      have hleba : le b a := (List.pairwise_cons.1 hs₂).1 a hamem
      have hfab : f a = f b :=
        ht a (List.mem_cons_self a t₁) b (List.mem_cons_of_mem a hbmem) hleab hleba
      -- permutation bookkeeping
      have hp2 : (a :: t₁).Perm (b :: a :: t₂.erase a) :=
        hp.trans ((List.perm_cons_erase hamem).cons b)
      have hp4 : t₁.Perm (b :: t₂.erase a) :=
        (hp2.trans (List.Perm.swap a b (t₂.erase a))).cons_inv
      have hq2 : (b :: t₂).Perm (a :: b :: t₁.erase b) :=
        hp.symm.trans ((List.perm_cons_erase hbmem).cons a)
      have hq4 : t₂.Perm (a :: t₁.erase b) :=
        (hq2.trans (List.Perm.swap b a (t₁.erase b))).cons_inv
      have hr : (t₁.erase b).Perm (t₂.erase a) := by
        have := hp4.erase b
        rwa [List.erase_cons_head] at this
      -- sortedness bookkeeping
      have hs₁t : t₁.Pairwise le := (List.pairwise_cons.1 hs₁).2
      have hs₂t : t₂.Pairwise le := (List.pairwise_cons.1 hs₂).2
      have hsb : (b :: t₂.erase a).Pairwise le := by
        refine List.pairwise_cons.2 ⟨fun x hx => ?_, hs₂t.sublist (List.erase_sublist a t₂)⟩
        exact (List.pairwise_cons.1 hs₂).1 x (List.erase_subset a t₂ hx)
      have hsa : (a :: t₁.erase b).Pairwise le := by
        refine List.pairwise_cons.2 ⟨fun x hx => ?_, hs₁t.sublist (List.erase_sublist b t₁)⟩
        exact (List.pairwise_cons.1 hs₁).1 x (List.erase_subset b t₁ hx)
      have hse₁ : (t₁.erase b).Pairwise le := hs₁t.sublist (List.erase_sublist b t₁)
      have hse₂ : (t₂.erase a).Pairwise le := hs₂t.sublist (List.erase_sublist a t₂)
      -- tie hypotheses for the recursive calls
      have htin : ∀ x ∈ a :: t₁, ∀ y ∈ a :: t₁, le x y → le y x → f x = f y := ht
      have ht₁ : ∀ x ∈ t₁, ∀ y ∈ t₁, le x y → le y x → f x = f y :=
        fun x hx y hy => ht x (List.mem_cons_of_mem a hx) y (List.mem_cons_of_mem a hy)
      have hmem₂ : ∀ x ∈ t₂, x ∈ a :: t₁ :=
        fun x hx => hp.symm.subset (List.mem_cons_of_mem b hx)
      have ht₂ : ∀ x ∈ t₂, ∀ y ∈ t₂, le x y → le y x → f x = f y :=
        fun x hx y hy => ht x (hmem₂ x hx) y (hmem₂ y hy)
      have hte : ∀ x ∈ t₁.erase b, ∀ y ∈ t₁.erase b, le x y → le y x → f x = f y :=
        fun x hx y hy => ht₁ x (List.erase_subset b t₁ hx) y (List.erase_subset b t₁ hy)
      -- the three recursive calls
      have e₁ : t₁.map f = (b :: t₂.erase a).map f :=
        map_eq_of_perm_of_sorted le f t₁ (b :: t₂.erase a) hp4 hs₁t hsb ht₁
      have e₂ : t₂.map f = (a :: t₁.erase b).map f :=
        map_eq_of_perm_of_sorted le f t₂ (a :: t₁.erase b) hq4 hs₂t hsa ht₂
      have e₃ : (t₁.erase b).map f = (t₂.erase a).map f :=
        map_eq_of_perm_of_sorted le f (t₁.erase b) (t₂.erase a) hr hse₁ hse₂ hte
      calc (a :: t₁).map f = f a :: t₁.map f := rfl
        _ = f a :: f b :: (t₂.erase a).map f := by rw [e₁]; rfl
        _ = f b :: f a :: (t₂.erase a).map f := by rw [hfab]
        _ = f b :: f a :: (t₁.erase b).map f := by rw [e₃]
        _ = f b :: t₂.map f := by rw [e₂]; rfl
        _ = (b :: t₂).map f := rfl
termination_by l₁ _ _ _ _ _ => l₁.length
decreasing_by
  · simp
  · simp
  · have hlen : (a :: t₁).length = (b :: t₂).length := hp.length_eq
    simp at hlen ⊢
    omega
  · have hlb : (t₁.erase b).length = t₁.length - 1 := List.length_erase_of_mem hbmem
    simp
    omega

theorem lex2_tie {x1 x2 y1 y2 : List Char}
    (h1 : lex2 x1 x2 y1 y2 ≠ .gt) (h2 : lex2 y1 y2 x1 x2 ≠ .gt) : x1 = y1 ∧ x2 = y2 := by
  unfold lex2 at *
  rcases hxy : lcmp x1 y1 with _ | _ | _
  · rw [(lcmp_gt_iff_lt y1 x1).2 hxy] at h2
    simp at h2
  · refine ⟨eq_of_lcmp_eq hxy, ?_⟩
    rw [eq_of_lcmp_eq hxy, lcmp_self] at h2
    simp [hxy] at h1
    rcases hd : lcmp x2 y2 with _ | _ | _
    · rw [(lcmp_gt_iff_lt y2 x2).2 hd] at h2
      simp at h2
    · exact eq_of_lcmp_eq hd
    · exact absurd hd h1
  · simp [hxy] at h1

theorem lcmp_tie {x y : List Char} (h1 : lcmp x y ≠ .gt) (h2 : lcmp y x ≠ .gt) : x = y := by
  rcases hxy : lcmp x y with _ | _ | _
  · rw [(lcmp_gt_iff_lt y x).2 hxy] at h2
    simp at h2
  · exact eq_of_lcmp_eq hxy
  · exact absurd hxy h1

theorem find?_eq_of_perm {α : Type} (p : α → Bool) (l₁ l₂ : List α) (hp : l₁.Perm l₂)
    (hu : ∀ x ∈ l₁, ∀ y ∈ l₁, p x = true → p y = true → x = y) :
    l₁.find? p = l₂.find? p := by
  rcases h₁ : l₁.find? p with _ | a
  · rcases h₂ : l₂.find? p with _ | b
    · rfl
    · have hbm : b ∈ l₁ := hp.symm.subset (List.mem_of_find?_eq_some h₂)
      have := List.find?_eq_none.1 h₁ b hbm
      simp [List.find?_some h₂] at this
  · rcases h₂ : l₂.find? p with _ | b
    · have ham : a ∈ l₂ := hp.subset (List.mem_of_find?_eq_some h₁)
      have := List.find?_eq_none.1 h₂ a ham
      simp [List.find?_some h₁] at this
    · have ha := List.find?_some h₁
      have hb := List.find?_some h₂
      have ham := List.mem_of_find?_eq_some h₁
      have hbm : b ∈ l₁ := hp.symm.subset (List.mem_of_find?_eq_some h₂)
      rw [hu a ham b hbm ha hb]

theorem serElemPieces_eq_map (xs : List JVal) : serElemPieces xs = xs.map ser := by
  induction xs with
  | nil => rfl
  | cons x xs ih => simp [serElemPieces, ih]

theorem ser_arr (xs : List JVal) :
    ser (.arr xs) = chLB :: joinComma (xs.map ser) ++ [chRB] := by
  rw [← serElemPieces_eq_map]
  rfl

theorem ser_obj2 (k1 k2 : String) (v1 v2 : JVal)
    (h1 : isUndef v1 = false) (h2 : isUndef v2 = false) :
    ser (.obj [(k1, v1), (k2, v2)]) =
      chOB :: ((serStr k1 ++ ':' :: ser v1) ++ ',' :: (serStr k2 ++ ':' :: ser v2)) ++ [chCB] := by
  show chOB :: joinComma (serFieldPieces [(k1, v1), (k2, v2)]) ++ [chCB] = _
  rw [serFieldPieces, if_neg (by simp [h1]), serFieldPieces, if_neg (by simp [h2]), serFieldPieces]
  rfl

theorem nodesOf_mkDoc (ns es : List JVal) : nodesOf (mkDoc ns es) = ns := rfl

theorem edgesOf_mkDoc (ns es : List JVal) : edgesOf (mkDoc ns es) = es := rfl

theorem getField_canonNode_type (n : JVal) :
    getField (canonNode n) ("type") = getField n ("type") := rfl

theorem getField_canonNode_data (n : JVal) :
    getField (canonNode n) ("data") = normalizeNodeData (dataEff n) := rfl

/-- hashInput is a function of the two serialized piece lists alone. -/
theorem hashInput_congr (c₁ c₂ : JVal)
    (hn : (List.insertionSort nodeR ((nodesOf c₁).map canonNode)).map ser =
          (List.insertionSort nodeR ((nodesOf c₂).map canonNode)).map ser)
    (he : (List.insertionSort edgeR ((edgesOf c₁).map (canonEdge (nodesOf c₁)))).map ser =
          (List.insertionSort edgeR ((edgesOf c₂).map (canonEdge (nodesOf c₂)))).map ser) :
    hashInput c₁ = hashInput c₂ := by
  unfold hashInput jsonStringify normalizeWorkflowForHash
  rw [ser_obj2 ("nodes") ("edges")
      (.arr (List.insertionSort nodeR ((nodesOf c₁).map canonNode)))
      (.arr (List.insertionSort edgeR ((edgesOf c₁).map (canonEdge (nodesOf c₁))))) rfl rfl,
    ser_obj2 ("nodes") ("edges")
      (.arr (List.insertionSort nodeR ((nodesOf c₂).map canonNode)))
      (.arr (List.insertionSort edgeR ((edgesOf c₂).map (canonEdge (nodesOf c₂))))) rfl rfl,
    ser_arr, ser_arr, ser_arr, ser_arr, hn, he]

theorem str_data_inj {s t : String} (h : s.data = t.data) : s = t := by
  cases s
  cases t
  exact congrArg String.mk h

theorem findNodeType_perm (ns₁ ns₂ : List JVal) (hp : ns₁.Perm ns₂)
    (hids : (ns₁.map (fun n => getField n ("id"))).Nodup) (x : JVal) :
    findNodeType ns₁ x = findNodeType ns₂ x := by
  unfold findNodeType
  rw [find?_eq_of_perm (fun n => getField n ("id") == x) ns₁ ns₂ hp ?hu]
  case hu =>
    intro a ha b hb hpa hpb
    have ha' : getField a ("id") = x := by simpa using hpa
    have hb' : getField b ("id") = x := by simpa using hpb
    by_cases hab : a = b
    · exact hab
    · have hpw : List.Pairwise (fun m n => getField m ("id") ≠ getField n ("id")) ns₁ :=
        List.pairwise_map.mp hids
      have hsym : Symmetric (fun m n : JVal => getField m ("id") ≠ getField n ("id")) :=
        fun m n h => h.symm
      exact absurd (ha'.trans hb'.symm) (hpw.forall hsym ha hb hab)

theorem canonEdge_perm (ns₁ ns₂ : List JVal) (hp : ns₁.Perm ns₂)
    (hids : (ns₁.map (fun n => getField n ("id"))).Nodup) (e : JVal) :
    canonEdge ns₁ e = canonEdge ns₂ e := by
  unfold canonEdge
  rw [findNodeType_perm ns₁ ns₂ hp hids, findNodeType_perm ns₁ ns₂ hp hids]

theorem ser_canonNode_str (n : JVal) (s : String) (h : getField n ("type") = .str s) :
    ser (canonNode n) =
      chOB :: ((serStr "type" ++ ':' :: serStr s) ++ ',' ::
        (serStr "data" ++ ':' :: ser (normalizeNodeData (dataEff n)))) ++ [chCB] := by
  unfold canonNode
  rw [h]
  exact ser_obj2 ("type") ("data") (.str s) (normalizeNodeData (dataEff n)) rfl rfl

/-- The tie content of the node comparator for string-typed nodes: tied
canonical nodes serialize identically. -/
theorem ser_eq_of_node_tie (n₁ n₂ : JVal) (s₁ s₂ : String)
    (h₁ : getField n₁ ("type") = .str s₁) (h₂ : getField n₂ ("type") = .str s₂)
    (hab : nodeR (canonNode n₁) (canonNode n₂)) (hba : nodeR (canonNode n₂) (canonNode n₁)) :
    ser (canonNode n₁) = ser (canonNode n₂) := by
  unfold nodeR at hab hba
  rw [cmpNode_eq_lex2] at hab hba
  have htie := lex2_tie hab hba
  rw [getField_canonNode_type, getField_canonNode_type, h₁, h₂] at htie
  rw [getField_canonNode_data, getField_canonNode_data] at htie
  have hs : s₁ = s₂ := str_data_inj htie.1
  rw [ser_canonNode_str n₁ s₁ h₁, ser_canonNode_str n₂ s₂ h₂, hs, htie.2]

theorem isStr_exists {v : JVal} (h : isStr v = true) : ∃ s, v = .str s := by
  cases v <;> simp [isStr] at h ⊢

theorem map_congr_all {α β : Type} (f g : α → β) (l : List α) (h : ∀ a ∈ l, f a = g a) :
    l.map f = l.map g := by
  induction l with
  | nil => rfl
  | cons x xs ih =>
    simp only [List.map_cons, h x (List.mem_cons_self x xs)]
    rw [ih (fun a ha => h a (List.mem_cons_of_mem x ha))]

/-- C3 (amended): for a valid document whose node types are all strings and
whose node ids are pairwise distinct, independently permuting the nodes array
and the edges array leaves the canonical serialization, hence the fingerprint
computed from it, unchanged. -/
theorem c3_permutation_invariance (ns₁ ns₂ es₁ es₂ : List JVal)
    (hn : ns₁.Perm ns₂) (he : es₁.Perm es₂)
    (hty : ∀ n ∈ ns₁, isStr (getField n ("type")) = true)
    (hids : (ns₁.map (fun n => getField n ("id"))).Nodup)
    (hv : ∃ k, validateWorkflowContent (mkDoc ns₁ es₁) = .pass k) :
    hashInput (mkDoc ns₁ es₁) = hashInput (mkDoc ns₂ es₂) := by
  apply hashInput_congr
  · rw [nodesOf_mkDoc, nodesOf_mkDoc]
    apply map_eq_of_perm_of_sorted nodeR ser
    · exact ((List.perm_insertionSort nodeR _).trans (hn.map canonNode)).trans
        (List.perm_insertionSort nodeR _).symm
    · exact List.sorted_insertionSort nodeR _
    · exact List.sorted_insertionSort nodeR _
    · intro a ha b hb hab hba
      have ha' : a ∈ ns₁.map canonNode := (List.perm_insertionSort nodeR _).subset ha
      have hb' : b ∈ ns₁.map canonNode := (List.perm_insertionSort nodeR _).subset hb
      obtain ⟨n₁, hn₁, rfl⟩ := List.mem_map.1 ha'
      obtain ⟨n₂, hn₂, rfl⟩ := List.mem_map.1 hb'
      obtain ⟨s₁, hs₁⟩ := isStr_exists (hty n₁ hn₁)
      obtain ⟨s₂, hs₂⟩ := isStr_exists (hty n₂ hn₂)
      exact ser_eq_of_node_tie n₁ n₂ s₁ s₂ hs₁ hs₂ hab hba
  · rw [edgesOf_mkDoc, edgesOf_mkDoc, nodesOf_mkDoc, nodesOf_mkDoc]
    have hce : es₂.map (canonEdge ns₂) = es₂.map (canonEdge ns₁) :=
      map_congr_all _ _ es₂ (fun e _ => (canonEdge_perm ns₁ ns₂ hn hids e).symm)
    apply map_eq_of_perm_of_sorted edgeR ser
    · refine ((List.perm_insertionSort edgeR _).trans ?_).trans
        (List.perm_insertionSort edgeR _).symm
      rw [hce]
      exact he.map (canonEdge ns₁)
    · exact List.sorted_insertionSort edgeR _
    · exact List.sorted_insertionSort edgeR _
    · intro a _ b _ hab hba
      exact lcmp_tie hab hba

/-- C3 witness: the amended permutation-invariance theorem applied to a
concrete two-node valid document. -/
theorem c3_permutation_invariance_witness :
    hashInput (mkDoc [cexDupA, cexEmptyType] []) = hashInput (mkDoc [cexEmptyType, cexDupA] []) :=
  c3_permutation_invariance [cexDupA, cexEmptyType] [cexEmptyType, cexDupA] [] []
    (by decide) (by decide) (by decide) (by decide) ⟨2, by decide⟩

set_option maxRecDepth 40000

/-- C3 counterexample: shuffling a valid document can change the fingerprint
input.  First instance: one node with no type property and one with the empty
string as type (both resolve their module type through data.moduleType and
pass validation) tie in the sort comparator yet serialize differently, so the
stable sort preserves their submitted order inside the canonical form.
Second instance: two distinct valid nodes sharing an id (validation accepts
duplicate ids) make edge endpoint resolution depend on node order. -/
theorem c3_permutation_invariance_cex :
    (validateWorkflowContent (mkDoc [cexTypeless, cexEmptyType] []) = .pass 2 ∧
     validateWorkflowContent (mkDoc [cexEmptyType, cexTypeless] []) = .pass 2 ∧
     [cexTypeless, cexEmptyType].Perm [cexEmptyType, cexTypeless] ∧
     hashInput (mkDoc [cexTypeless, cexEmptyType] []) ≠
       hashInput (mkDoc [cexEmptyType, cexTypeless] [])) ∧
    (validateWorkflowContent (mkDoc [cexDupA, cexDupB] [cexSelfEdge]) = .pass 2 ∧
     validateWorkflowContent (mkDoc [cexDupB, cexDupA] [cexSelfEdge]) = .pass 2 ∧
     [cexDupA, cexDupB].Perm [cexDupB, cexDupA] ∧
     hashInput (mkDoc [cexDupA, cexDupB] [cexSelfEdge]) ≠
       hashInput (mkDoc [cexDupB, cexDupA] [cexSelfEdge])) := by
  exact ⟨⟨by decide, by decide, by decide, by decide⟩,
         ⟨by decide, by decide, by decide, by decide⟩⟩

theorem filterEntries_entriesRel : ∀ es es2, entriesRel es es2 → filterEntries es = filterEntries es2
  | [], [], _ => rfl
  | (k, v) :: es, (k2, v2) :: es2, h => by
    obtain ⟨rfl, hv, htl⟩ := h
    have ih := filterEntries_entriesRel es es2 htl
    simp only [filterEntries, List.filter_cons] at ih ⊢
    simp at ih
    by_cases hmem : k2 ∈ ignoreKeys
    · simp [hmem, ih]
    · rcases hv with hv | hv
      · exact absurd hv hmem
      · subst hv
        simp [hmem, ih]
  | [], _ :: _, h => by simp [entriesRel] at h
  | _ :: _, [], h => by simp [entriesRel] at h

theorem canonNode_cosmetic (f : String → String) (n n2 : JVal) (h : cosmeticRel f n n2) :
    canonNode n2 = canonNode n := by
  unfold canonNode normalizeNodeData
  rw [h.1, filterEntries_entriesRel _ _ h.2.2]

theorem find?_forall₂ {α β : Type} (R : α → β → Prop) (p : α → Bool) (q : β → Bool)
    (hpq : ∀ a b, R a b → p a = q b) :
    ∀ l₁ l₂, List.Forall₂ R l₁ l₂ →
      (l₁.find? p = none ∧ l₂.find? q = none) ∨
      (∃ a b, R a b ∧ l₁.find? p = some a ∧ l₂.find? q = some b) := by
  intro l₁ l₂ h
  induction h with
  | nil =>
    left
    exact ⟨rfl, rfl⟩
  | @cons a b l₁' l₂' hR htl ih =>
    by_cases hp : p a = true
    · right
      refine ⟨a, b, hR, List.find?_cons_of_pos l₁' hp, List.find?_cons_of_pos l₂' ?_⟩
      rw [← hpq a b hR]
      exact hp
    · have hq : ¬ q b = true := by
        rw [← hpq a b hR]
        exact hp
      rw [List.find?_cons_of_neg l₁' (by simpa using hp), List.find?_cons_of_neg l₂' (by simpa using hq)]
      exact ih

theorem findNodeType_rename (f : String → String) (ns ns2 : List JVal)
    (hF : List.Forall₂ (cosmeticRel f) ns ns2)
    (hf : ∀ a b, f a = f b → a = b) (s : String) :
    findNodeType ns2 (.str (f s)) = findNodeType ns (.str s) := by
  unfold findNodeType
  have hpq : ∀ a b, cosmeticRel f a b →
      (getField a ("id") == JVal.str s) = (getField b ("id") == JVal.str (f s)) := by
    intro a b hR
    obtain ⟨t, hta, htb⟩ := hR.2.1
    rw [hta, htb]
    by_cases hts : t = s
    · subst hts
      simp
    · have : f t ≠ f s := fun he => hts (hf t s he)
      simp [hts, this]
  rcases find?_forall₂ (cosmeticRel f) _ _ hpq ns ns2 hF with ⟨h1, h2⟩ | ⟨a, b, hR, h1, h2⟩
  · rw [h1, h2]
  · rw [h1, h2]
    show jsOr (getField b ("type")) (.str "unknown") = jsOr (getField a ("type")) (.str "unknown")
    rw [hR.1]

theorem canonEdge_rename (f : String → String) (ns ns2 : List JVal)
    (hF : List.Forall₂ (cosmeticRel f) ns ns2)
    (hf : ∀ a b, f a = f b → a = b)
    (e e2 : JVal) (hE : edgeRel f e e2) :
    canonEdge ns2 e2 = canonEdge ns e := by
  obtain ⟨⟨s, hs, hs2⟩, ⟨t, ht, ht2⟩, hsh, hth⟩ := hE
  unfold canonEdge
  rw [hs, hs2, ht, ht2, hsh, hth,
    findNodeType_rename f ns ns2 hF hf s, findNodeType_rename f ns ns2 hF hf t]

/-- C4: renaming every node id through an injective fresh-name function
(updating edge endpoints to match) and changing cosmetic fields (top-level
position and friends are never read; label, name, description, x, y,
position, id inside data are filtered out) leaves the canonical
serialization, hence the fingerprint, unchanged. -/
theorem c4_cosmetic_invariance (f : String → String) (ns ns2 es es2 : List JVal)
    (hf : ∀ a b, f a = f b → a = b)
    (hN : List.Forall₂ (cosmeticRel f) ns ns2)
    (hE : List.Forall₂ (edgeRel f) es es2)
    (hv : ∃ k, validateWorkflowContent (mkDoc ns es) = .pass k) :
    hashInput (mkDoc ns es) = hashInput (mkDoc ns2 es2) := by
  have hnodes : ns2.map canonNode = ns.map canonNode := by
    clear hE hv
    induction hN with
    | nil => rfl
    | @cons a b l₁' l₂' hR htl ih =>
      simp only [List.map_cons, canonNode_cosmetic f a b hR, ih]
  have hedges : es2.map (canonEdge ns2) = es.map (canonEdge ns) := by
    clear hv
    induction hE with
    | nil => rfl
    | @cons e e2 l₁' l₂' hR htl ih =>
      simp only [List.map_cons, canonEdge_rename f ns ns2 hN hf e e2 hR, ih]
  apply hashInput_congr
  · rw [nodesOf_mkDoc, nodesOf_mkDoc, hnodes]
  · rw [edgesOf_mkDoc, edgesOf_mkDoc, nodesOf_mkDoc, nodesOf_mkDoc, hedges]

theorem c4Rename_inj : ∀ a b : String, c4Rename a = c4Rename b → a = b := by
  intro a b h
  unfold c4Rename at h
  have hd := congrArg String.data h
  rw [String.data_append, String.data_append] at hd
  exact str_data_inj (List.append_cancel_right hd)

/-- C4 witness: the cosmetic-invariance theorem applied to a concrete valid
document whose node is renamed (id n1 to n1x, edge endpoints updated) with a
changed data label, a changed top-level position removed. -/
theorem c4_cosmetic_invariance_witness :
    hashInput (mkDoc [c4NodeA] [c4Edge]) = hashInput (mkDoc [c4NodeB] [c4EdgeB]) :=
  c4_cosmetic_invariance c4Rename [c4NodeA] [c4NodeB] [c4Edge] [c4EdgeB]
    c4Rename_inj
    (List.Forall₂.cons
      ⟨rfl, ⟨"n1", rfl, by decide⟩, ⟨rfl, Or.inr rfl, rfl, Or.inl (by decide), trivial⟩⟩
      List.Forall₂.nil)
    (List.Forall₂.cons
      ⟨⟨"n1", rfl, by decide⟩, ⟨"n1", rfl, by decide⟩, rfl, rfl⟩
      List.Forall₂.nil)
    ⟨1, by decide⟩

/-- C7: the validator is total: for every JSON-decodable input value it
returns either a pass verdict with a node count or a fail verdict with an
error message.  The embedding is a total function over arbitrary values, so
no input makes it throw. -/
theorem c7_validator_totality (content : JVal) :
    (∃ k, validateWorkflowContent content = .pass k) ∨
    (∃ e, validateWorkflowContent content = .fail e) := by
  rcases h : validateWorkflowContent content with k | e
  · exact Or.inl ⟨k, rfl⟩
  · exact Or.inr ⟨e, rfl⟩

/-- C9: sanitizeWorkflow returns the submitted content itself, and the
validator and fingerprint read the same unchanged value: the pipeline never
replaces or mutates the stored document. -/
theorem c9_no_mutation (content : JVal) (sha256hex : String → String) :
    sanitizeWorkflow content = content ∧
    validateWorkflowContent (sanitizeWorkflow content) = validateWorkflowContent content ∧
    calculateWorkflowHash sha256hex (sanitizeWorkflow content) =
      calculateWorkflowHash sha256hex content :=
  ⟨rfl, rfl, rfl⟩

theorem keepVal_of_truthy {v : JVal} (h : truthy v = true) : keepVal v = true := by
  cases v <;> simp_all [truthy, keepVal]

theorem getField_filterEntries : ∀ (fs : List (String × JVal)) (k : String),
    k ∉ ignoreKeys → keepVal (getField (.obj fs) k) = true →
    getField (.obj (filterEntries fs)) k = getField (.obj fs) k
  | [], k, _, hv => rfl
  | (k2, v2) :: fs, k, hk, hv => by
    by_cases he : k2 = k
    · subst he
      have hval : getField (.obj ((k2, v2) :: fs)) k2 = v2 := by
        simp [getField]
      rw [hval] at hv
      have hc : ignoreKeys.contains k2 = false := by simpa using hk
      simp only [filterEntries, List.filter_cons]
      rw [if_pos (by simp [hv, hc]; exact hk)]
      simp [getField]
    · have hval : getField (.obj ((k2, v2) :: fs)) k = getField (.obj fs) k := by
        simp [getField, List.find?_cons_of_neg, he]
      rw [hval] at hv ⊢
      have ih := getField_filterEntries fs k hk hv
      simp only [filterEntries, List.filter_cons] at ih ⊢
      by_cases hkeep : (!ignoreKeys.contains k2 && keepVal v2) = true
      · rw [if_pos hkeep]
        rw [show getField (JVal.obj ((k2, v2) ::
              List.filter (fun kv => !ignoreKeys.contains kv.1 && keepVal kv.2) fs)) k =
            getField (JVal.obj (List.filter (fun kv => !ignoreKeys.contains kv.1 && keepVal kv.2) fs)) k from by
          simp [getField, List.find?_cons_of_neg, he]]
        exact ih
      · rw [if_neg hkeep]
        exact ih

/-- C1 (amended): the canonicalizer uses the raw type property, not the
effective step kind: the canonical nodes carry exactly the submitted type
values (as a multiset), a wrapped node's data.moduleType is retained inside
canonicalData rather than promoted to the step kind, and edge endpoint kinds
are resolved by findNodeType, which reads the raw type of the referenced
node. -/
theorem c1_canonical_kinds (content : JVal) :
    ((List.insertionSort nodeR ((nodesOf content).map canonNode)).map
        (fun c => getField c ("type"))).Perm
      ((nodesOf content).map (fun n => getField n ("type"))) ∧
    (∀ n ∈ nodesOf content, truthy (getField (dataEff n) ("moduleType")) = true →
      getField (getField (canonNode n) ("data")) ("moduleType") =
        getField (dataEff n) ("moduleType")) ∧
    (∀ e, getField (canonEdge (nodesOf content) e) ("sourceType") =
        findNodeType (nodesOf content) (getField e ("source")) ∧
      getField (canonEdge (nodesOf content) e) ("targetType") =
        findNodeType (nodesOf content) (getField e ("target"))) := by
  refine ⟨?_, ?_, ?_⟩
  · have h1 := (List.perm_insertionSort nodeR ((nodesOf content).map canonNode)).map
      (fun c => getField c ("type"))
    refine h1.trans ?_
    rw [List.map_map]
    exact List.Perm.refl _
  · intro n _ htr
    rw [getField_canonNode_data]
    unfold normalizeNodeData
    have hobj : ∃ fs, dataEff n = .obj fs := by
      rcases hd : dataEff n with _ | _ | b | i | s | xs | fs
      · rw [hd] at htr
        simp [getField, truthy] at htr
      · rw [hd] at htr
        simp [getField, truthy] at htr
      · rw [hd] at htr
        simp [getField, truthy] at htr
      · rw [hd] at htr
        simp [getField, truthy] at htr
      · rw [hd] at htr
        simp [getField, truthy] at htr
      · rw [hd] at htr
        simp [getField, truthy] at htr
      · exact ⟨fs, rfl⟩
    obtain ⟨fs, hfs⟩ := hobj
    rw [hfs] at htr ⊢
    have : entriesOf (.obj fs) = fs := rfl
    rw [this]
    exact getField_filterEntries fs ("moduleType") (by decide) (keepVal_of_truthy htr)
  · intro e
    exact ⟨rfl, rfl⟩

/-- C1 witness: the amended theorem applied to the concrete wrapped-node
document. -/
theorem c1_canonical_kinds_witness :
    getField (getField (canonNode cexWrappedNode) ("data")) ("moduleType") = .str "open_page" :=
  ((c1_canonical_kinds cexWrappedDoc).2.1 cexWrappedNode (by decide) (by decide)).trans (by decide)

/-- C1 counterexample: a validated wrapped node (type moduleNode with
data.moduleType open_page) produces a canonical node and edge endpoints whose
step kind is the wrapper kind moduleNode, not the effective step kind
open_page demanded by the claim. -/
theorem c1_canonical_kinds_cex :
    validateWorkflowContent cexWrappedDoc = .pass 1 ∧
    effectiveStepKindSpec cexWrappedNode = .str "open_page" ∧
    List.insertionSort nodeR ((nodesOf cexWrappedDoc).map canonNode) =
      [.obj [("type", .str "moduleNode"), ("data", .obj [("moduleType", .str "open_page")])]] ∧
    getField (canonNode cexWrappedNode) ("type") = .str "moduleNode" ∧
    findNodeType (nodesOf cexWrappedDoc) (.str "n1") = .str "moduleNode" ∧
    JVal.str "moduleNode" ≠ .str "open_page" := by
  exact ⟨by decide, by decide, by decide, by decide, by decide, by decide⟩

/-- The validator on a two-field document, with the structural prefix checks
computed away. -/
theorem validate_mkDoc (ns es : List JVal) :
    validateWorkflowContent (mkDoc ns es) =
      (if ns.length = 0 then .fail ("工作流至少需要一个节点")
       else if 500 < ns.length then .fail ("工作流节点数量不能超过500个")
       else
         match checkNodes ns 0 with
         | .error e => .fail e
         | .ok (vc, inv) =>
           if vc = 0 then .fail ("这不是 Web RPA 的工作流文件，未找到任何有效的模块类型")
           else if inv ≠ [] then .fail (invalidTypesMessage inv)
           else
             match checkEdges es (ns.map (fun n => getField n ("id"))) 0 with
             | .error e => .fail e
             | .ok _ =>
               if 500000 < serLen (mkDoc ns es) then
                 .fail ("工作流内容过大（超过500KB），请精简后再发布")
               else .pass ns.length) := rfl

/-- C2 (amended): a document that passes the structural per-node checks, has
at least one known-vocabulary node, and has between one and three distinct
unknown step kinds is rejected (not tolerated), with the error listing the
unknown kinds. -/
theorem c2_unknown_kinds_rejected (ns es : List JVal) (vc : Nat) (inv : List JVal)
    (h1 : ns.length ≠ 0) (h2 : ns.length ≤ 500)
    (hscan : checkNodes ns 0 = .ok (vc, inv))
    (hvc : vc ≠ 0) (hinv : inv ≠ []) (hle : (dedupFirst inv).length ≤ 3) :
    validateWorkflowContent (mkDoc ns es) =
      .fail ("包含不支持的模块类型: " ++
        joinSep (", ") (((dedupFirst inv).take 3).map jsDisplay)) := by
  rw [validate_mkDoc, if_neg h1, if_neg (by omega), hscan]
  show (if vc = 0 then _ else if inv ≠ [] then ValidationResult.fail (invalidTypesMessage inv) else _) = _
  rw [if_neg hvc, if_pos hinv]
  unfold invalidTypesMessage
  rw [if_neg (by omega), if_neg (by omega)]
  simp

/-- C2 witness: the amended rejection theorem applied to the concrete
document with one known node and one unknown kind. -/
theorem c2_unknown_kinds_rejected_witness :
    validateWorkflowContent cexUnknownDoc = .fail ("包含不支持的模块类型: totally_unknown_kind") := by
  have h := c2_unknown_kinds_rejected
    [.obj [("id", .str "a"), ("type", .str "open_page")],
     .obj [("id", .str "b"), ("type", .str "totally_unknown_kind")]] []
    1 [.str "totally_unknown_kind"]
    (by decide) (by decide) (by decide) (by decide) (by decide) (by decide)
  exact h.trans (by decide)

/-- C2 counterexample: the claim promises a pass verdict for a document with
one known node and a single unknown kind; the validator rejects it. -/
theorem c2_unknown_kinds_rejected_cex :
    checkNodes (nodesOf cexUnknownDoc) 0 = .ok (1, [.str "totally_unknown_kind"]) ∧
    validateWorkflowContent cexUnknownDoc =
      .fail ("包含不支持的模块类型: totally_unknown_kind") := by
  exact ⟨by decide, by decide⟩

theorem rf_not_valid {mt : JVal} (h : strSetHas validReactFlowTypes mt = true) :
    strSetHas validModuleTypes mt = false := by
  rcases mt with _ | _ | b | i | s | xs | fs <;>
    simp [strSetHas, validReactFlowTypes] at h
  rcases h with rfl | rfl | rfl <;> decide

theorem checkNodes_wrappers : ∀ (ns : List JVal) (i : Nat),
    (∀ n ∈ ns, perNodeOk n = true ∧
      ∃ mt, moduleTypeOf n = some mt ∧ strSetHas validReactFlowTypes mt = true) →
    checkNodes ns i = .ok (0, [])
  | [], _, _ => rfl
  | node :: rest, i, h => by
    obtain ⟨hok, mt, hmt, hrf⟩ := h node (List.mem_cons_self node rest)
    have ih := checkNodes_wrappers rest (i+1)
      (fun n hn => h n (List.mem_cons_of_mem node hn))
    simp only [perNodeOk, Bool.and_eq_true, decide_eq_true_eq] at hok
    obtain ⟨⟨⟨⟨⟨h1, h2⟩, h3⟩, h4⟩, h5⟩, h6⟩ := hok
    unfold checkNodes
    rw [if_neg (by simp [h1, h2]), if_neg (by simp [h3, h4]), hmt]
    show (if (truthy (getField node ("position")) && !typeofIsObj (getField node ("position"))) = true then
        Except.error ("节点 \"" ++ jsDisplay (getField node ("id")) ++ "\" 的 position 格式无效")
      else if 50000 < serLen (jsOr (getField node ("data")) (.obj [])) then
        Except.error ("节点 \"" ++ jsDisplay (getField node ("id")) ++ "\" 的配置数据过大（超过50KB）")
      else
        match checkNodes rest (i+1) with
        | .error e => .error e
        | .ok (vc, inv) =>
          if strSetHas validModuleTypes mt then .ok (vc + 1, inv)
          else if strSetHas validReactFlowTypes mt then .ok (vc, inv)
          else .ok (vc, mt :: inv)) = Except.ok (0, [])
    rw [if_neg (by
        simp only [Bool.and_eq_true, not_and, Bool.not_eq_true']
        intro hp
        simp at h5
        rcases h5 with h5 | h5
        · exact absurd hp (by simp [h5])
        · simpa using h5), if_neg (by omega), ih]
    simp [rf_not_valid hrf, hrf]

/-- C10: a document in which every node's resolved module type is a wrapper
kind (moduleNode, groupNode, noteNode) is rejected with the
no-recognizable-module-type error: wrapper kinds count neither as valid nor
as unknown, so the valid count stays zero. -/
theorem c10_all_wrappers_rejected (ns es : List JVal)
    (h1 : ns.length ≠ 0) (h2 : ns.length ≤ 500)
    (hall : ∀ n ∈ ns, perNodeOk n = true ∧
      ∃ mt, moduleTypeOf n = some mt ∧ strSetHas validReactFlowTypes mt = true) :
    validateWorkflowContent (mkDoc ns es) =
      .fail ("这不是 Web RPA 的工作流文件，未找到任何有效的模块类型") := by
  rw [validate_mkDoc, if_neg h1, if_neg (by omega), checkNodes_wrappers ns 0 hall]
  rfl

/-- C10 witness: the rejection theorem applied to the concrete document whose
only node is a bare wrapper (type moduleNode, no data.moduleType). -/
theorem c10_all_wrappers_rejected_witness :
    validateWorkflowContent c10Doc =
      .fail ("这不是 Web RPA 的工作流文件，未找到任何有效的模块类型") := by
  have h := c10_all_wrappers_rejected [.obj [("id", .str "a"), ("type", .str "moduleNode")]] []
    (by decide) (by decide)
    (by
      intro n hn
      rcases List.mem_singleton.1 hn with rfl
      exact ⟨by decide, .str "moduleNode", by decide, by decide⟩)
  exact h

/-- C8 (amended): the validator performs no duplicate-id check: for every
known module type, the two-node document whose distinct nodes share the id a
is accepted with node count 2. -/
theorem c8_duplicate_ids_accepted :
    ∀ t ∈ validModuleTypes,
      (JVal.obj [("id", .str "a"), ("type", .str t)]) ≠
        (JVal.obj [("id", .str "a"), ("type", .str t), ("data", .obj [("url", .str "x")])]) ∧
      getField (.obj [("id", .str "a"), ("type", .str t)]) ("id") =
        getField (.obj [("id", .str "a"), ("type", .str t), ("data", .obj [("url", .str "x")])]) ("id") ∧
      validateWorkflowContent (c8Doc t) = .pass 2 := by
  decide

/-- C8 witness: duplicate-id acceptance at the concrete type open_page. -/
theorem c8_duplicate_ids_accepted_witness :
    validateWorkflowContent (c8Doc "open_page") = .pass 2 :=
  (c8_duplicate_ids_accepted "open_page" (by decide)).2.2

/-- C8 counterexample: the claim demands an error verdict for a document with
two distinct nodes sharing an id; the validator passes it, returning node
count 2. -/
theorem c8_duplicate_ids_accepted_cex :
    validateWorkflowContent (c8Doc "click_element") = .pass 2 ∧
    (nodesOf (c8Doc "click_element")).map (fun n => getField n ("id")) =
      [.str "a", .str "a"] ∧
    nodesOf (c8Doc "click_element") ≠ [] ∧
    ¬ ((nodesOf (c8Doc "click_element")).map (fun n => getField n ("id"))).Nodup := by
  exact ⟨by decide, by decide, by decide, by decide⟩

theorem checkNodes_replicate : ∀ (n i : Nat),
    checkNodes (List.replicate n okNode) i = .ok (n, [])
  | 0, _ => rfl
  | n+1, i => by
    rw [List.replicate_succ]
    show (match checkNodes (List.replicate n okNode) (i+1) with
      | .error e => Except.error e
      | .ok (vc, inv) => Except.ok (vc + 1, inv)) = Except.ok (n + 1, [])
    rw [checkNodes_replicate n (i+1)]

theorem joinComma_replicate_len : ∀ (n : Nat) (x : List Char), 1 ≤ n →
    (joinComma (List.replicate n x)).length = n * x.length + (n - 1)
  | 1, x, _ => by simp [joinComma]
  | n+2, x, _ => by
    have ih := joinComma_replicate_len (n+1) x (by omega)
    rw [List.replicate_succ]
    rw [show joinComma (x :: List.replicate (n+1) x) =
        x ++ ',' :: joinComma (List.replicate (n+1) x) from by
      rw [List.replicate_succ]
      rfl]
    simp only [List.length_append, List.length_cons, ih]
    ring_nf
    omega

theorem serLen_doc_replicate (n : Nat) (hn : 1 ≤ n) :
    serLen (mkDoc (List.replicate n okNode) []) = 30 * n + 22 := by
  unfold serLen mkDoc
  rw [ser_obj2 ("nodes") ("edges") (.arr (List.replicate n okNode)) (.arr []) rfl rfl,
    ser_arr, ser_arr, List.map_replicate]
  have h29 : (ser okNode).length = 29 := by decide
  simp only [List.length_append, List.length_cons, List.map_nil, joinComma,
    joinComma_replicate_len n (ser okNode) hn, h29]
  have h7a : (serStr ("nodes")).length = 7 := by decide
  have h7b : (serStr ("edges")).length = 7 := by decide
  simp only [h7a, h7b, List.length_nil]
  omega

theorem escape_plain : ∀ (cs : List Char), (∀ c ∈ cs, escChar c = [c]) → escape cs = cs
  | [], _ => rfl
  | c :: cs, h => by
    rw [escape, h c (List.mem_cons_self c cs),
      escape_plain cs (fun x hx => h x (List.mem_cons_of_mem c hx))]
    rfl

theorem onlyPlain_chars {s : String} (hp : onlyPlain s = true) : ∀ c ∈ s.data, escChar c = [c] := by
  intro c hc
  have := List.all_eq_true.1 hp c hc
  simpa using this

theorem ser_obj1 (k : String) (v : JVal) (h : isUndef v = false) :
    ser (.obj [(k, v)]) = chOB :: (serStr k ++ ':' :: ser v) ++ [chCB] := by
  show chOB :: joinComma (serFieldPieces [(k, v)]) ++ [chCB] = _
  rw [serFieldPieces, if_neg (by simp [h]), serFieldPieces]
  rfl

theorem ser_obj3 (k1 k2 k3 : String) (v1 v2 v3 : JVal)
    (h1 : isUndef v1 = false) (h2 : isUndef v2 = false) (h3 : isUndef v3 = false) :
    ser (.obj [(k1, v1), (k2, v2), (k3, v3)]) =
      chOB :: ((serStr k1 ++ ':' :: ser v1) ++ ',' ::
        ((serStr k2 ++ ':' :: ser v2) ++ ',' :: (serStr k3 ++ ':' :: ser v3))) ++ [chCB] := by
  show chOB :: joinComma (serFieldPieces [(k1, v1), (k2, v2), (k3, v3)]) ++ [chCB] = _
  rw [serFieldPieces, if_neg (by simp [h1]), serFieldPieces, if_neg (by simp [h2]),
    serFieldPieces, if_neg (by simp [h3]), serFieldPieces]
  rfl

theorem serStr_plain_len {s : String} (hp : onlyPlain s = true) :
    (serStr s).length = s.data.length + 2 := by
  unfold serStr
  rw [escape_plain s.data (onlyPlain_chars hp)]
  simp

theorem serLen_dataObj {s : String} (hp : onlyPlain s = true) :
    serLen (.obj [("u", .str s)]) = s.data.length + 8 := by
  unfold serLen
  rw [ser_obj1 ("u") (.str s) rfl]
  show (chOB :: (serStr ("u") ++ ':' :: serStr s) ++ [chCB]).length = _
  simp only [List.length_append, List.length_cons, List.length_nil, serStr_plain_len hp]
  have : (serStr ("u")).length = 3 := by decide
  simp only [this]
  omega

theorem serLen_dataNodeDoc {s : String} (hp : onlyPlain s = true) :
    serLen (mkDoc [dataNode s] []) = s.data.length + 69 := by
  unfold serLen mkDoc
  rw [ser_obj2 ("nodes") ("edges") (.arr [dataNode s]) (.arr []) rfl rfl, ser_arr, ser_arr]
  show (chOB :: ((serStr ("nodes") ++ ':' :: (chLB :: joinComma [ser (dataNode s)] ++ [chRB])) ++
    ',' :: (serStr ("edges") ++ ':' :: (chLB :: joinComma [] ++ [chRB]))) ++ [chCB]).length = _
  rw [show joinComma [ser (dataNode s)] = ser (dataNode s) from rfl]
  rw [show ser (dataNode s) = ser (.obj [("id", .str "d1"), ("type", .str "open_page"),
    ("data", .obj [("u", .str s)])]) from rfl]
  rw [ser_obj3 ("id") ("type") ("data") (.str "d1") (.str "open_page") (.obj [("u", .str s)])
    rfl rfl rfl]
  simp only [List.length_append, List.length_cons]
  have e1 : (serStr ("nodes")).length = 7 := by decide
  have e2 : (serStr ("edges")).length = 7 := by decide
  have e3 : (serStr ("id")).length = 4 := by decide
  have e4 : (serStr ("type")).length = 6 := by decide
  have e5 : (serStr ("data")).length = 6 := by decide
  have e6 : (ser (JVal.str "d1")).length = 4 := by decide
  have e7 : (ser (JVal.str "open_page")).length = 11 := by decide
  have e8 : (ser (JVal.obj [("u", JVal.str s)])).length = s.data.length + 8 := serLen_dataObj hp
  simp only [e1, e2, e3, e4, e5, e6, e7, e8, joinComma, List.length_nil]
  simp
  omega

theorem checkNodes_dataNode (s : String) :
    checkNodes [dataNode s] 0 =
      if 50000 < serLen (.obj [("u", .str s)]) then
        .error ("节点 \"d1\" 的配置数据过大（超过50KB）")
      else .ok (1, []) := by
  show (if (truthy (getField (dataNode s) ("position")) &&
        !typeofIsObj (getField (dataNode s) ("position"))) = true then
      Except.error ("节点 \"" ++ jsDisplay (getField (dataNode s) ("id")) ++ "\" 的 position 格式无效")
    else if 50000 < serLen (jsOr (getField (dataNode s) ("data")) (.obj [])) then
      Except.error ("节点 \"" ++ jsDisplay (getField (dataNode s) ("id")) ++ "\" 的配置数据过大（超过50KB）")
    else
      match checkNodes [] 1 with
      | .error e => .error e
      | .ok (vc, inv) =>
        if strSetHas validModuleTypes (.str "open_page") then .ok (vc + 1, inv)
        else if strSetHas validReactFlowTypes (.str "open_page") then .ok (vc, inv)
        else .ok (vc, .str "open_page" :: inv)) =
    (if 50000 < serLen (.obj [("u", .str s)]) then
      Except.error ("节点 \"d1\" 的配置数据过大（超过50KB）")
    else Except.ok (1, []))
  rw [if_neg (fun h => Bool.noConfusion h)]
  rw [show jsOr (getField (dataNode s) ("data")) (.obj []) = .obj [("u", .str s)] from rfl]
  by_cases hbig : 50000 < serLen (.obj [("u", .str s)])
  · rw [if_pos hbig, if_pos hbig]
    rfl
  · rw [if_neg hbig, if_neg hbig]
    rfl

theorem validate_mkDoc_ok (ns es : List JVal) (vc : Nat)
    (h1 : ns.length ≠ 0) (h2 : ns.length ≤ 500)
    (hscan : checkNodes ns 0 = .ok (vc, []))
    (hvc : vc ≠ 0)
    (hedges : checkEdges es (ns.map (fun n => getField n ("id"))) 0 = .ok ())
    (hsize : serLen (mkDoc ns es) ≤ 500000) :
    validateWorkflowContent (mkDoc ns es) = .pass ns.length := by
  rw [validate_mkDoc, if_neg h1, if_neg (by omega), hscan]
  show (if vc = 0 then ValidationResult.fail ("这不是 Web RPA 的工作流文件，未找到任何有效的模块类型")
    else if ([] : List JVal) ≠ [] then ValidationResult.fail (invalidTypesMessage [])
    else
      match checkEdges es (ns.map (fun n => getField n ("id"))) 0 with
      | .error e => ValidationResult.fail e
      | .ok _ =>
        if 500000 < serLen (mkDoc ns es) then
          ValidationResult.fail ("工作流内容过大（超过500KB），请精简后再发布")
        else ValidationResult.pass ns.length) = ValidationResult.pass ns.length
  rw [if_neg hvc, if_neg (by simp), hedges]
  show (if 500000 < serLen (mkDoc ns es) then
      ValidationResult.fail ("工作流内容过大（超过500KB），请精简后再发布")
    else ValidationResult.pass ns.length) = ValidationResult.pass ns.length
  rw [if_neg (by omega)]

theorem onlyPlain_bigA : ∀ n : Nat, onlyPlain (bigA n) = true := by
  intro n
  show (List.replicate n 'a').all (fun c => escChar c == [c]) = true
  induction n with
  | zero => rfl
  | succ n ih =>
    rw [List.replicate_succ, List.all_cons, ih]
    decide

/-- C6: boundary behaviour of the validator: exactly 500 nodes pass with
nodeCount 500, 501 nodes are rejected, zero nodes are rejected, a node whose
serialized data is exactly 50000 characters passes while anything beyond
50000 is rejected (so 50001 is), and a pass verdict always carries the
document's node count. -/
theorem c6_boundaries :
    validateWorkflowContent doc500 = .pass 500 ∧
    validateWorkflowContent doc501 = .fail ("工作流节点数量不能超过500个") ∧
    validateWorkflowContent (mkDoc [] []) = .fail ("工作流至少需要一个节点") ∧
    (∀ s : String, onlyPlain s = true →
      serLen (jsOr (getField (dataNode s) ("data")) (.obj [])) = s.data.length + 8 ∧
      (s.data.length + 8 ≤ 50000 →
        validateWorkflowContent (mkDoc [dataNode s] []) = .pass 1) ∧
      (50000 < s.data.length + 8 →
        validateWorkflowContent (mkDoc [dataNode s] []) =
          .fail ("节点 \"d1\" 的配置数据过大（超过50KB）"))) ∧
    (∀ content k, validateWorkflowContent content = .pass k →
      k = (arrElems (getField content ("nodes"))).length) := by
  refine ⟨?_, ?_, ?_, ?_, ?_⟩
  · show validateWorkflowContent (mkDoc (List.replicate 500 okNode) []) = .pass 500
    have h := validate_mkDoc_ok (List.replicate 500 okNode) [] 500
      (by simp) (by simp) (checkNodes_replicate 500 0) (by omega) rfl
      (by rw [serLen_doc_replicate 500 (by omega)]; omega)
    rw [h]
    simp
  · show validateWorkflowContent (mkDoc (List.replicate 501 okNode) []) = _
    rw [validate_mkDoc, if_neg (by simp), if_pos (by simp)]
  · decide
  · intro s hp
    have hlen : serLen (jsOr (getField (dataNode s) ("data")) (.obj [])) = s.data.length + 8 := by
      rw [show jsOr (getField (dataNode s) ("data")) (.obj []) = .obj [("u", .str s)] from rfl]
      exact serLen_dataObj hp
    refine ⟨hlen, ?_, ?_⟩
    · intro hle
      have h := validate_mkDoc_ok [dataNode s] [] 1
        (by simp) (by simp) ?_ (by omega) rfl ?_
      · exact h
      · rw [checkNodes_dataNode s, if_neg (by rw [serLen_dataObj hp]; omega)]
      · rw [serLen_dataNodeDoc hp]
        omega
    · intro hgt
      rw [validate_mkDoc, if_neg (by simp), if_neg (by simp)]
      rw [checkNodes_dataNode s, if_pos (by rw [serLen_dataObj hp]; omega)]
  · intro content k h
    unfold validateWorkflowContent at h
    by_cases b1 : (!(truthy content && typeofIsObj content)) = true
    · rw [if_pos b1] at h
      exact absurd h (by simp)
    rw [if_neg b1] at h
    by_cases b2 : isArr content = true
    · rw [if_pos b2] at h
      exact absurd h (by simp)
    rw [if_neg b2] at h
    by_cases b3 : (!hasField content ("nodes")) = true
    · rw [if_pos b3] at h
      exact absurd h (by simp)
    rw [if_neg b3] at h
    by_cases b4 : (!hasField content ("edges")) = true
    · rw [if_pos b4] at h
      exact absurd h (by simp)
    rw [if_neg b4] at h
    by_cases b5 : (!isArr (getField content ("nodes"))) = true
    · rw [if_pos b5] at h
      exact absurd h (by simp)
    rw [if_neg b5] at h
    by_cases b6 : (!isArr (getField content ("edges"))) = true
    · rw [if_pos b6] at h
      exact absurd h (by simp)
    rw [if_neg b6] at h
    by_cases b7 : (arrElems (getField content ("nodes"))).length = 0
    · rw [if_pos b7] at h
      exact absurd h (by simp)
    rw [if_neg b7] at h
    by_cases b8 : 500 < (arrElems (getField content ("nodes"))).length
    · rw [if_pos b8] at h
      exact absurd h (by simp)
    rw [if_neg b8] at h
    rcases h9 : checkNodes (arrElems (getField content ("nodes"))) 0 with e | ⟨vc, inv⟩
    · simp only [h9] at h
      exact absurd h (by simp)
    · simp only [h9] at h
      by_cases b10 : vc = 0
      · rw [if_pos b10] at h
        exact absurd h (by simp)
      rw [if_neg b10] at h
      by_cases b11 : inv ≠ []
      · rw [if_pos b11] at h
        exact absurd h (by simp)
      rw [if_neg b11] at h
      rcases h12 : checkEdges (arrElems (getField content ("edges")))
          ((arrElems (getField content ("nodes"))).map (fun n => getField n ("id"))) 0 with e | u
      · simp only [h12] at h
        exact absurd h (by simp)
      · simp only [h12] at h
        rcases h13 : (if getField content ("variables") ≠ JVal.undef then
            (if (!isArr (getField content ("variables"))) = true then
              Except.error ("变量字段格式错误：应为数组")
            else checkVariables (arrElems (getField content ("variables"))) 0)
          else Except.ok ()) with e | u2
        · simp only [h13] at h
          exact absurd h (by simp)
        · simp only [h13] at h
          by_cases b14 : 500000 < serLen content
          · rw [if_pos b14] at h
            exact absurd h (by simp)
          rw [if_neg b14] at h
          cases h
          rfl

theorem bigA_len (n : Nat) : (bigA n).data.length = n := by
  show (List.replicate n 'a').length = n
  simp

/-- C6 witness: the boundary theorem applied at the exact boundary: a node
with serialized data of exactly 50000 characters passes, 50001 fails, and the
500-node acceptance restated. -/
theorem c6_boundaries_witness :
    serLen (jsOr (getField (dataNode (bigA 49992)) ("data")) (.obj [])) = 50000 ∧
    validateWorkflowContent (mkDoc [dataNode (bigA 49992)] []) = .pass 1 ∧
    serLen (jsOr (getField (dataNode (bigA 49993)) ("data")) (.obj [])) = 50001 ∧
    validateWorkflowContent (mkDoc [dataNode (bigA 49993)] []) =
      .fail ("节点 \"d1\" 的配置数据过大（超过50KB）") ∧
    validateWorkflowContent doc500 = .pass 500 := by
  have hA := c6_boundaries.2.2.2.1 (bigA 49992) (onlyPlain_bigA 49992)
  have hB := c6_boundaries.2.2.2.1 (bigA 49993) (onlyPlain_bigA 49993)
  refine ⟨?_, ?_, ?_, ?_, c6_boundaries.1⟩
  · rw [hA.1, bigA_len]
  · exact hA.2.1 (by rw [bigA_len])
  · rw [hB.1, bigA_len]
  · exact hB.2.2 (by rw [bigA_len]; omega)

/-! ## Injectivity of the deterministic serialization -/

theorem digitChar_lt10 : ∀ d : Nat, d < 10 →
    (Nat.digitChar d).isDigit = true ∧ (Nat.digitChar d).toNat = 48 + d := by
  decide

theorem natCharsAux_digits : ∀ (fuel n : Nat), ∀ c ∈ natCharsAux fuel n, c.isDigit = true
  | 0, _, c, hc => by simp [natCharsAux] at hc
  | fuel+1, n, c, hc => by
    rw [natCharsAux] at hc
    by_cases hn : n = 0
    · simp [hn] at hc
    · rw [if_neg hn] at hc
      rcases List.mem_append.1 hc with h | h
      · exact natCharsAux_digits fuel (n / 10) c h
      · rcases List.mem_singleton.1 h with rfl
        exact (digitChar_lt10 (n % 10) (Nat.mod_lt n (by omega))).1

theorem charsVal_append (xs : List Char) (c : Char) :
    charsVal (xs ++ [c]) = charsVal xs * 10 + (c.toNat - 48) := by
  unfold charsVal
  rw [List.foldl_append]
  rfl

theorem natCharsAux_val : ∀ (fuel n : Nat), n ≤ fuel → charsVal (natCharsAux fuel n) = n
  | 0, n, h => by
    have : n = 0 := by omega
    simp [natCharsAux, charsVal, this]
  | fuel+1, n, h => by
    rw [natCharsAux]
    by_cases hn : n = 0
    · simp [hn, charsVal]
    · rw [if_neg hn, charsVal_append]
      have hle : n / 10 ≤ fuel := by omega
      rw [natCharsAux_val fuel (n / 10) hle]
      have := (digitChar_lt10 (n % 10) (Nat.mod_lt n (by omega))).2
      omega

theorem natChars_val (n : Nat) : charsVal (natChars n) = n := by
  unfold natChars
  by_cases hn : n = 0
  · simp [hn, charsVal]
  · rw [if_neg hn]
    exact natCharsAux_val n n (le_refl n)

theorem natChars_inj {m n : Nat} (h : natChars m = natChars n) : m = n := by
  have := congrArg charsVal h
  rwa [natChars_val, natChars_val] at this

theorem natChars_digits (n : Nat) : ∀ c ∈ natChars n, c.isDigit = true := by
  unfold natChars
  by_cases hn : n = 0
  · simp [hn]
  · rw [if_neg hn]
    exact natCharsAux_digits n n

theorem natChars_ne_nil (n : Nat) : natChars n ≠ [] := by
  unfold natChars
  by_cases hn : n = 0
  · simp [hn]
  · rw [if_neg hn]
    rcases n with _ | m
    · exact absurd rfl hn
    · rw [natCharsAux, if_neg hn]
      simp

theorem digitRun : ∀ (a₁ a₂ s t : List Char),
    (∀ c ∈ a₁, c.isDigit = true) → (∀ c ∈ a₂, c.isDigit = true) →
    tailOK s → tailOK t → a₁ ++ s = a₂ ++ t → a₁ = a₂ ∧ s = t
  | [], [], s, t, _, _, _, _, h => ⟨rfl, h⟩
  | [], c :: a₂, s, t, _, h2, hs, _, h => by
    have hd : c.isDigit = true := h2 c (List.mem_cons_self c a₂)
    simp only [List.nil_append, List.cons_append] at h
    have hh : s.head? = some c := by rw [h]; rfl
    exact absurd hd (by simp [hs c hh])
  | c :: a₁, [], s, t, h1, _, _, ht, h => by
    have hd : c.isDigit = true := h1 c (List.mem_cons_self c a₁)
    simp only [List.nil_append, List.cons_append] at h
    have hh : t.head? = some c := by rw [← h]; rfl
    exact absurd hd (by simp [ht c hh])
  | c₁ :: a₁, c₂ :: a₂, s, t, h1, h2, hs, ht, h => by
    simp only [List.cons_append, List.cons.injEq] at h
    obtain ⟨hc, hrest⟩ := h
    have ih := digitRun a₁ a₂ s t
      (fun c hc => h1 c (List.mem_cons_of_mem c₁ hc))
      (fun c hc => h2 c (List.mem_cons_of_mem c₂ hc)) hs ht hrest
    exact ⟨by rw [hc, ih.1], ih.2⟩

theorem intChars_ext : ∀ (m n : Int) (s t : List Char), tailOK s → tailOK t →
    intChars m ++ s = intChars n ++ t → m = n ∧ s = t := by
  intro m n s t hs ht h
  rcases m with m | m <;> rcases n with n | n <;> simp only [intChars] at h
  · have := digitRun (natChars m) (natChars n) s t (natChars_digits m) (natChars_digits n) hs ht h
    exact ⟨by rw [natChars_inj this.1], this.2⟩
  · rcases he : natChars m with _ | ⟨c, cs⟩
    · exact absurd he (natChars_ne_nil m)
    · rw [he] at h
      simp only [List.cons_append, List.cons.injEq] at h
      have hd : c.isDigit = true := natChars_digits m c (he ▸ List.mem_cons_self c cs)
      rw [h.1] at hd
      exact absurd hd (by decide)
  · rcases he : natChars n with _ | ⟨c, cs⟩
    · exact absurd he (natChars_ne_nil n)
    · rw [he] at h
      simp only [List.cons_append, List.cons.injEq] at h
      have hd : c.isDigit = true := natChars_digits n c (he ▸ List.mem_cons_self c cs)
      rw [← h.1] at hd
      exact absurd hd (by decide)
  · simp only [List.cons_append, List.cons.injEq] at h
    have := digitRun (natChars (m+1)) (natChars (n+1)) s t
      (natChars_digits (m+1)) (natChars_digits (n+1)) hs ht h.2
    have hmn : m = n := by
      have := natChars_inj this.1
      omega
    exact ⟨by rw [hmn], this.2⟩

theorem hexChar_inj : ∀ m < 16, ∀ n < 16, hexChar m = hexChar n → m = n := by
  decide

theorem escChar_head : ∀ c : Char, ∃ d ds, escChar c = d :: ds ∧ d ≠ chQ := by
  intro c
  unfold escChar
  split_ifs with h1 h2 h3 h4 h5 h6 h7 h8
  all_goals first
    | exact ⟨_, _, rfl, by decide⟩
    | exact ⟨c, [], rfl, h1⟩

set_option maxHeartbeats 2000000 in
theorem escCharExt : ∀ (c₁ c₂ : Char) (x y : List Char),
    escChar c₁ ++ x = escChar c₂ ++ y → c₁ = c₂ ∧ x = y := by
  intro c₁ c₂ x y h
  unfold escChar at h
  split_ifs at h <;>
    try (simp_all +decide [chQ])
  all_goals first
    | (obtain ⟨h1, h2⟩ := h
       first
       | exact absurd h1.symm (by assumption)
       | exact absurd h1 (by assumption))
    | (obtain ⟨hh, hl, hxy⟩ := h
       have e1 : c₁.toNat / 16 = c₂.toNat / 16 := hexChar_inj _ (by omega) _ (by omega) hh
       have e2 : c₁.toNat % 16 = c₂.toNat % 16 := hexChar_inj _ (by omega) _ (by omega) hl
       have e3 : c₁.toNat = c₂.toNat := by omega
       first
       | exact ⟨Char.eq_of_val_eq (UInt32.ext e3), hxy⟩
       | exact Char.eq_of_val_eq (UInt32.ext e3))

theorem escExt : ∀ (a b x y : List Char),
    escape a ++ chQ :: x = escape b ++ chQ :: y → a = b ∧ x = y
  | [], [], x, y, h => by
    simp only [escape, List.nil_append, List.cons.injEq] at h
    exact ⟨rfl, h.2⟩
  | [], c :: b, x, y, h => by
    obtain ⟨d, ds, hed, hdq⟩ := escChar_head c
    simp only [escape, List.nil_append, hed, List.cons_append, List.append_assoc,
      List.cons.injEq] at h
    exact absurd h.1.symm hdq
  | c :: a, [], x, y, h => by
    obtain ⟨d, ds, hed, hdq⟩ := escChar_head c
    simp only [escape, List.nil_append, hed, List.cons_append, List.append_assoc,
      List.cons.injEq] at h
    exact absurd h.1 hdq
  | c :: a, c2 :: b, x, y, h => by
    simp only [escape, List.append_assoc] at h
    obtain ⟨hc, ht⟩ := escCharExt c c2 _ _ h
    obtain ⟨hab, hxy⟩ := escExt a b x y ht
    exact ⟨by rw [hc, hab], hxy⟩

theorem serStrExt (s₁ s₂ : String) (x y : List Char)
    (h : serStr s₁ ++ x = serStr s₂ ++ y) : s₁ = s₂ ∧ x = y := by
  unfold serStr at h
  simp only [List.cons_append, List.append_assoc, List.singleton_append,
    List.cons.injEq, true_and] at h
  obtain ⟨hd, hxy⟩ := escExt s₁.data s₂.data x y h
  exact ⟨str_data_inj hd, hxy⟩

theorem ne_of_digit {c d : Char} (hd : c.isDigit = true) (hdn : d.isDigit = false) : c ≠ d :=
  fun h => absurd (h ▸ hd) (by simp [hdn])

theorem ser_head : ∀ v : JVal, ∃ c cs, ser v = c :: cs ∧
    charKind c = headKind v ∧ c ≠ ',' ∧ c ≠ chRB ∧ c ≠ chCB
  | .undef => ⟨'n', _, rfl, by decide, by decide, by decide, by decide⟩
  | .null => ⟨'n', _, rfl, by decide, by decide, by decide, by decide⟩
  | .bool true => ⟨'t', _, rfl, by decide, by decide, by decide, by decide⟩
  | .bool false => ⟨'f', _, rfl, by decide, by decide, by decide, by decide⟩
  | .num (.ofNat n) => by
    rcases he : natChars n with _ | ⟨c, cs⟩
    · exact absurd he (natChars_ne_nil n)
    · have hd : c.isDigit = true := natChars_digits n c (he ▸ List.mem_cons_self c cs)
      refine ⟨c, cs, ?_, ?_, ?_, ?_, ?_⟩
      · show intChars (Int.ofNat n) = c :: cs
        simpa [intChars] using he
      · show charKind c = 2
        unfold charKind
        rw [if_neg (show ¬c = 'n' from ne_of_digit hd (by decide)),
          if_neg (show ¬(c = 't' ∨ c = 'f') from fun hor => hor.elim
            (fun hh => ne_of_digit hd (by decide) hh) (fun hh => ne_of_digit hd (by decide) hh)),
          if_pos (Or.inl hd)]
      · exact ne_of_digit hd (by decide)
      · exact ne_of_digit hd (by decide)
      · exact ne_of_digit hd (by decide)
  | .num (.negSucc n) => ⟨'-', natChars (n+1), rfl,
      (show charKind '-' = 2 by decide), by decide, by decide, by decide⟩
  | .str s => ⟨chQ, escape s.data ++ [chQ], rfl,
      (show charKind chQ = 3 by decide), by decide, by decide, by decide⟩
  | .arr xs => ⟨chLB, joinComma (serElemPieces xs) ++ [chRB], rfl,
      (show charKind chLB = 4 by decide), by decide, by decide, by decide⟩
  | .obj fs => ⟨chOB, joinComma (serFieldPieces fs) ++ [chCB], rfl,
      (show charKind chOB = 5 by decide), by decide, by decide, by decide⟩

theorem headKind_eq_of_serApp (v w : JVal) (x y : List Char)
    (h : ser v ++ x = ser w ++ y) : headKind v = headKind w := by
  obtain ⟨c, cs, hvh, hkv, _, _, _⟩ := ser_head v
  obtain ⟨d, ds, hwh, hkw, _, _, _⟩ := ser_head w
  rw [hvh, hwh] at h
  simp only [List.cons_append, List.cons.injEq] at h
  rw [← hkv, ← hkw, h.1]

theorem joinComma_cons (p : List Char) (ps : List (List Char)) :
    joinComma (p :: ps) = p ++ joinTail ps := by
  cases ps with
  | nil => simp [joinComma, joinTail]
  | cons q qs => simp [joinComma, joinTail]

theorem tailOK_cons {c : Char} (hc : c.isDigit = false) (s : List Char) : tailOK (c :: s) := by
  intro d hd
  simp only [List.head?] at hd
  cases hd
  exact hc

theorem tailOK_joinTail (ps : List (List Char)) {c : Char} (hc : c.isDigit = false)
    (x : List Char) : tailOK (joinTail ps ++ c :: x) := by
  cases ps with
  | nil => exact tailOK_cons hc x
  | cons q qs => exact tailOK_cons (by decide) _

theorem isUndef_eq_false_of_undefFree {v : JVal} (h : undefFree v = true) :
    isUndef v = false := by
  cases v <;> first | rfl | (simp [undefFree] at h)

theorem joinTail_cons (p : List Char) (ps : List (List Char)) :
    joinTail (p :: ps) = ',' :: joinComma (p :: ps) := rfl

theorem serFieldPieces_cons {k : String} {v : JVal} (fs : List (String × JVal))
    (hv : isUndef v = false) :
    serFieldPieces ((k, v) :: fs) = (serStr k ++ ':' :: ser v) :: serFieldPieces fs := by
  simp [serFieldPieces, hv]

mutual

/-- ser is injective on undefined-free values even with arbitrary
non-digit-headed continuations appended: the JSON grammar is prefix-free. -/
theorem serExt : ∀ (v w : JVal) (x y : List Char), undefFree v = true →
    undefFree w = true → tailOK x → tailOK y →
    ser v ++ x = ser w ++ y → v = w ∧ x = y
  | .undef, _, _, _, hv, _, _, _, _ => by simp [undefFree] at hv
  | _, .undef, _, _, _, hw, _, _, _ => by simp [undefFree] at hw
  | .null, .null, x, y, _, _, _, _, h => by
    simp only [ser, List.cons_append, List.nil_append, List.cons.injEq,
      eq_self_iff_true, true_and] at h
    exact ⟨rfl, h⟩
  | .null, .bool _, _, _, _, _, _, _, h => by
    have hk := headKind_eq_of_serApp _ _ _ _ h
    simp [headKind] at hk
  | .null, .num _, _, _, _, _, _, _, h => by
    have hk := headKind_eq_of_serApp _ _ _ _ h
    simp [headKind] at hk
  | .null, .str _, _, _, _, _, _, _, h => by
    have hk := headKind_eq_of_serApp _ _ _ _ h
    simp [headKind] at hk
  | .null, .arr _, _, _, _, _, _, _, h => by
    have hk := headKind_eq_of_serApp _ _ _ _ h
    simp [headKind] at hk
  | .null, .obj _, _, _, _, _, _, _, h => by
    have hk := headKind_eq_of_serApp _ _ _ _ h
    simp [headKind] at hk
  | .bool _, .null, _, _, _, _, _, _, h => by
    have hk := headKind_eq_of_serApp _ _ _ _ h
    simp [headKind] at hk
  | .bool b, .bool b2, x, y, _, _, _, _, h => by
    rcases b <;> rcases b2 <;> simp [ser] at h <;> exact ⟨rfl, h⟩
  | .bool _, .num _, _, _, _, _, _, _, h => by
    have hk := headKind_eq_of_serApp _ _ _ _ h
    simp [headKind] at hk
  | .bool _, .str _, _, _, _, _, _, _, h => by
    have hk := headKind_eq_of_serApp _ _ _ _ h
    simp [headKind] at hk
  | .bool _, .arr _, _, _, _, _, _, _, h => by
    have hk := headKind_eq_of_serApp _ _ _ _ h
    simp [headKind] at hk
  | .bool _, .obj _, _, _, _, _, _, _, h => by
    have hk := headKind_eq_of_serApp _ _ _ _ h
    simp [headKind] at hk
  | .num _, .null, _, _, _, _, _, _, h => by
    have hk := headKind_eq_of_serApp _ _ _ _ h
    simp [headKind] at hk
  | .num _, .bool _, _, _, _, _, _, _, h => by
    have hk := headKind_eq_of_serApp _ _ _ _ h
    simp [headKind] at hk
  | .num m, .num n, x, y, _, _, hx, hy, h => by
    simp only [ser] at h
    obtain ⟨h1, h2⟩ := intChars_ext m n x y hx hy h
    exact ⟨by rw [h1], h2⟩
  | .num _, .str _, _, _, _, _, _, _, h => by
    have hk := headKind_eq_of_serApp _ _ _ _ h
    simp [headKind] at hk
  | .num _, .arr _, _, _, _, _, _, _, h => by
    have hk := headKind_eq_of_serApp _ _ _ _ h
    simp [headKind] at hk
  | .num _, .obj _, _, _, _, _, _, _, h => by
    have hk := headKind_eq_of_serApp _ _ _ _ h
    simp [headKind] at hk
  | .str _, .null, _, _, _, _, _, _, h => by
    have hk := headKind_eq_of_serApp _ _ _ _ h
    simp [headKind] at hk
  | .str _, .bool _, _, _, _, _, _, _, h => by
    have hk := headKind_eq_of_serApp _ _ _ _ h
    simp [headKind] at hk
  | .str _, .num _, _, _, _, _, _, _, h => by
    have hk := headKind_eq_of_serApp _ _ _ _ h
    simp [headKind] at hk
  | .str s, .str t, x, y, _, _, _, _, h => by
    simp only [ser] at h
    obtain ⟨h1, h2⟩ := serStrExt s t x y h
    exact ⟨by rw [h1], h2⟩
  | .str _, .arr _, _, _, _, _, _, _, h => by
    have hk := headKind_eq_of_serApp _ _ _ _ h
    simp [headKind] at hk
  | .str _, .obj _, _, _, _, _, _, _, h => by
    have hk := headKind_eq_of_serApp _ _ _ _ h
    simp [headKind] at hk
  | .arr _, .null, _, _, _, _, _, _, h => by
    have hk := headKind_eq_of_serApp _ _ _ _ h
    simp [headKind] at hk
  | .arr _, .bool _, _, _, _, _, _, _, h => by
    have hk := headKind_eq_of_serApp _ _ _ _ h
    simp [headKind] at hk
  | .arr _, .num _, _, _, _, _, _, _, h => by
    have hk := headKind_eq_of_serApp _ _ _ _ h
    simp [headKind] at hk
  | .arr _, .str _, _, _, _, _, _, _, h => by
    have hk := headKind_eq_of_serApp _ _ _ _ h
    simp [headKind] at hk
  | .arr xs, .arr ys, x, y, hv, hw, _, _, h => by
    simp only [ser, List.cons_append, List.append_assoc, List.singleton_append,
      List.cons.injEq, eq_self_iff_true, true_and] at h
    simp only [undefFree] at hv hw
    obtain ⟨h1, h2⟩ := serElemsExt xs ys x y hv hw h
    exact ⟨by rw [h1], h2⟩
  | .arr _, .obj _, _, _, _, _, _, _, h => by
    have hk := headKind_eq_of_serApp _ _ _ _ h
    simp [headKind] at hk
  | .obj _, .null, _, _, _, _, _, _, h => by
    have hk := headKind_eq_of_serApp _ _ _ _ h
    simp [headKind] at hk
  | .obj _, .bool _, _, _, _, _, _, _, h => by
    have hk := headKind_eq_of_serApp _ _ _ _ h
    simp [headKind] at hk
  | .obj _, .num _, _, _, _, _, _, _, h => by
    have hk := headKind_eq_of_serApp _ _ _ _ h
    simp [headKind] at hk
  | .obj _, .str _, _, _, _, _, _, _, h => by
    have hk := headKind_eq_of_serApp _ _ _ _ h
    simp [headKind] at hk
  | .obj _, .arr _, _, _, _, _, _, _, h => by
    have hk := headKind_eq_of_serApp _ _ _ _ h
    simp [headKind] at hk
  | .obj fs, .obj gs, x, y, hv, hw, _, _, h => by
    simp only [ser, List.cons_append, List.append_assoc, List.singleton_append,
      List.cons.injEq, eq_self_iff_true, true_and] at h
    simp only [undefFree] at hv hw
    obtain ⟨h1, h2⟩ := serFieldsExt fs gs x y hv hw h
    exact ⟨by rw [h1], h2⟩
termination_by v w => sizeOf v + sizeOf w

theorem serElemsExt : ∀ (xs ys : List JVal) (x y : List Char),
    undefFreeElems xs = true → undefFreeElems ys = true →
    joinComma (serElemPieces xs) ++ chRB :: x = joinComma (serElemPieces ys) ++ chRB :: y →
    xs = ys ∧ x = y
  | [], [], x, y, _, _, h => by
    simp only [serElemPieces, joinComma, List.nil_append, List.cons.injEq,
      eq_self_iff_true, true_and] at h
    exact ⟨rfl, h⟩
  | [], w :: ys, x, y, _, _, h => by
    obtain ⟨c, cs, hwh, _, _, hcr, _⟩ := ser_head w
    rw [show serElemPieces (w :: ys) = ser w :: serElemPieces ys from rfl,
      joinComma_cons, hwh] at h
    simp only [serElemPieces, joinComma, List.nil_append, List.cons_append,
      List.append_assoc, List.cons.injEq] at h
    exact absurd h.1.symm hcr
  | v :: xs, [], x, y, _, _, h => by
    obtain ⟨c, cs, hvh, _, _, hcr, _⟩ := ser_head v
    rw [show serElemPieces (v :: xs) = ser v :: serElemPieces xs from rfl,
      joinComma_cons, hvh] at h
    simp only [serElemPieces, joinComma, List.nil_append, List.cons_append,
      List.append_assoc, List.cons.injEq] at h
    exact absurd h.1 hcr
  | v :: xs, w :: ys, x, y, hxs, hys, h => by
    simp only [undefFreeElems, Bool.and_eq_true] at hxs hys
    rw [show serElemPieces (v :: xs) = ser v :: serElemPieces xs from rfl,
      show serElemPieces (w :: ys) = ser w :: serElemPieces ys from rfl,
      joinComma_cons, joinComma_cons] at h
    simp only [List.append_assoc] at h
    obtain ⟨h1, h2⟩ := serExt v w _ _ hxs.1 hys.1
      (tailOK_joinTail _ (by decide) x) (tailOK_joinTail _ (by decide) y) h
    obtain ⟨h3, h4⟩ := serElemsTailExt xs ys x y hxs.2 hys.2 h2
    exact ⟨by rw [h1, h3], h4⟩
termination_by xs ys => sizeOf xs + sizeOf ys

theorem serElemsTailExt : ∀ (xs ys : List JVal) (x y : List Char),
    undefFreeElems xs = true → undefFreeElems ys = true →
    joinTail (serElemPieces xs) ++ chRB :: x = joinTail (serElemPieces ys) ++ chRB :: y →
    xs = ys ∧ x = y
  | [], [], x, y, _, _, h => by
    simp only [serElemPieces, joinTail, List.nil_append, List.cons.injEq,
      eq_self_iff_true, true_and] at h
    exact ⟨rfl, h⟩
  | [], w :: ys, x, y, _, _, h => by
    rw [show serElemPieces (w :: ys) = ser w :: serElemPieces ys from rfl,
      joinTail_cons] at h
    simp only [serElemPieces, joinTail, List.nil_append, List.cons_append,
      List.cons.injEq] at h
    exact absurd h.1 (by decide)
  | v :: xs, [], x, y, _, _, h => by
    rw [show serElemPieces (v :: xs) = ser v :: serElemPieces xs from rfl,
      joinTail_cons] at h
    simp only [serElemPieces, joinTail, List.nil_append, List.cons_append,
      List.cons.injEq] at h
    exact absurd h.1 (by decide)
  | v :: xs, w :: ys, x, y, hxs, hys, h => by
    simp only [undefFreeElems, Bool.and_eq_true] at hxs hys
    rw [show serElemPieces (v :: xs) = ser v :: serElemPieces xs from rfl,
      show serElemPieces (w :: ys) = ser w :: serElemPieces ys from rfl,
      joinTail_cons, joinTail_cons, joinComma_cons, joinComma_cons] at h
    simp only [List.cons_append, List.append_assoc, List.cons.injEq,
      eq_self_iff_true, true_and] at h
    obtain ⟨h1, h2⟩ := serExt v w _ _ hxs.1 hys.1
      (tailOK_joinTail _ (by decide) x) (tailOK_joinTail _ (by decide) y) h
    obtain ⟨h3, h4⟩ := serElemsTailExt xs ys x y hxs.2 hys.2 h2
    exact ⟨by rw [h1, h3], h4⟩
termination_by xs ys => sizeOf xs + sizeOf ys

theorem serFieldsExt : ∀ (fs gs : List (String × JVal)) (x y : List Char),
    undefFreeFields fs = true → undefFreeFields gs = true →
    joinComma (serFieldPieces fs) ++ chCB :: x = joinComma (serFieldPieces gs) ++ chCB :: y →
    fs = gs ∧ x = y
  | [], [], x, y, _, _, h => by
    simp only [serFieldPieces, joinComma, List.nil_append, List.cons.injEq,
      eq_self_iff_true, true_and] at h
    exact ⟨rfl, h⟩
  | [], (k2, w) :: gs, x, y, _, hgs, h => by
    simp only [undefFreeFields, Bool.and_eq_true] at hgs
    rw [serFieldPieces_cons gs (isUndef_eq_false_of_undefFree hgs.1),
      joinComma_cons] at h
    simp only [serFieldPieces, joinComma, serStr, List.nil_append, List.cons_append,
      List.append_assoc, List.cons.injEq] at h
    exact absurd h.1 (by decide)
  | (k, v) :: fs, [], x, y, hfs, _, h => by
    simp only [undefFreeFields, Bool.and_eq_true] at hfs
    rw [serFieldPieces_cons fs (isUndef_eq_false_of_undefFree hfs.1),
      joinComma_cons] at h
    simp only [serFieldPieces, joinComma, serStr, List.nil_append, List.cons_append,
      List.append_assoc, List.cons.injEq] at h
    exact absurd h.1 (by decide)
  | (k, v) :: fs, (k2, w) :: gs, x, y, hfs, hgs, h => by
    simp only [undefFreeFields, Bool.and_eq_true] at hfs hgs
    rw [serFieldPieces_cons fs (isUndef_eq_false_of_undefFree hfs.1),
      serFieldPieces_cons gs (isUndef_eq_false_of_undefFree hgs.1),
      joinComma_cons, joinComma_cons] at h
    simp only [List.append_assoc, List.cons_append] at h
    obtain ⟨hk, h2⟩ := serStrExt k k2 _ _ h
    simp only [List.cons.injEq, eq_self_iff_true, true_and] at h2
    obtain ⟨hvw, h3⟩ := serExt v w _ _ hfs.1 hgs.1
      (tailOK_joinTail _ (by decide) x) (tailOK_joinTail _ (by decide) y) h2
    obtain ⟨h4, h5⟩ := serFieldsTailExt fs gs x y hfs.2 hgs.2 h3
    exact ⟨by rw [hk, hvw, h4], h5⟩
termination_by fs gs => sizeOf fs + sizeOf gs

theorem serFieldsTailExt : ∀ (fs gs : List (String × JVal)) (x y : List Char),
    undefFreeFields fs = true → undefFreeFields gs = true →
    joinTail (serFieldPieces fs) ++ chCB :: x = joinTail (serFieldPieces gs) ++ chCB :: y →
    fs = gs ∧ x = y
  | [], [], x, y, _, _, h => by
    simp only [serFieldPieces, joinTail, List.nil_append, List.cons.injEq,
      eq_self_iff_true, true_and] at h
    exact ⟨rfl, h⟩
  | [], (k2, w) :: gs, x, y, _, hgs, h => by
    simp only [undefFreeFields, Bool.and_eq_true] at hgs
    rw [serFieldPieces_cons gs (isUndef_eq_false_of_undefFree hgs.1),
      joinTail_cons] at h
    simp only [serFieldPieces, joinTail, List.nil_append, List.cons_append,
      List.cons.injEq] at h
    exact absurd h.1 (by decide)
  | (k, v) :: fs, [], x, y, hfs, _, h => by
    simp only [undefFreeFields, Bool.and_eq_true] at hfs
    rw [serFieldPieces_cons fs (isUndef_eq_false_of_undefFree hfs.1),
      joinTail_cons] at h
    simp only [serFieldPieces, joinTail, List.nil_append, List.cons_append,
      List.cons.injEq] at h
    exact absurd h.1 (by decide)
  | (k, v) :: fs, (k2, w) :: gs, x, y, hfs, hgs, h => by
    simp only [undefFreeFields, Bool.and_eq_true] at hfs hgs
    rw [serFieldPieces_cons fs (isUndef_eq_false_of_undefFree hfs.1),
      serFieldPieces_cons gs (isUndef_eq_false_of_undefFree hgs.1),
      joinTail_cons, joinTail_cons, joinComma_cons, joinComma_cons] at h
    simp only [List.cons_append, List.append_assoc, List.cons.injEq,
      eq_self_iff_true, true_and] at h
    obtain ⟨hk, h2⟩ := serStrExt k k2 _ _ h
    simp only [List.cons.injEq, eq_self_iff_true, true_and] at h2
    obtain ⟨hvw, h3⟩ := serExt v w _ _ hfs.1 hgs.1
      (tailOK_joinTail _ (by decide) x) (tailOK_joinTail _ (by decide) y) h2
    obtain ⟨h4, h5⟩ := serFieldsTailExt fs gs x y hfs.2 hgs.2 h3
    exact ⟨by rw [hk, hvw, h4], h5⟩
termination_by fs gs => sizeOf fs + sizeOf gs

end

theorem isUndef_stripUndef : ∀ v : JVal, isUndef (stripUndef v) = false
  | .undef => rfl
  | .null => rfl
  | .bool _ => rfl
  | .num _ => rfl
  | .str _ => rfl
  | .arr _ => rfl
  | .obj _ => rfl

mutual

/-- Stripping undefineds does not change the serialization: JSON.stringify
already ignores them the same way. -/
theorem ser_stripUndef : ∀ v : JVal, ser (stripUndef v) = ser v
  | .undef => rfl
  | .null => rfl
  | .bool b => by cases b <;> rfl
  | .num _ => rfl
  | .str _ => rfl
  | .arr xs => by
    simp only [stripUndef, ser, serElemPieces_stripUndef xs]
  | .obj fs => by
    simp only [stripUndef, ser, serFieldPieces_stripUndef fs]

theorem serElemPieces_stripUndef : ∀ xs : List JVal,
    serElemPieces (stripUndefElems xs) = serElemPieces xs
  | [] => rfl
  | v :: xs => by
    simp only [stripUndefElems, serElemPieces, ser_stripUndef v,
      serElemPieces_stripUndef xs]

theorem serFieldPieces_stripUndef : ∀ fs : List (String × JVal),
    serFieldPieces (stripUndefFields fs) = serFieldPieces fs
  | [] => rfl
  | (k, v) :: fs => by
    by_cases hv : isUndef v = true
    · rw [show stripUndefFields ((k, v) :: fs) = stripUndefFields fs from by
          simp [stripUndefFields, hv],
        show serFieldPieces ((k, v) :: fs) = serFieldPieces fs from by
          simp [serFieldPieces, hv],
        serFieldPieces_stripUndef fs]
    · have hv2 : isUndef v = false := by simpa using hv
      rw [show stripUndefFields ((k, v) :: fs) = (k, stripUndef v) :: stripUndefFields fs from by
          simp [stripUndefFields, hv2],
        serFieldPieces_cons (stripUndefFields fs) (isUndef_stripUndef v),
        serFieldPieces_cons fs hv2,
        ser_stripUndef v, serFieldPieces_stripUndef fs]

end

mutual

/-- The stripped form of a value is undefined-free. -/
theorem undefFree_stripUndef : ∀ v : JVal, undefFree (stripUndef v) = true
  | .undef => rfl
  | .null => rfl
  | .bool _ => rfl
  | .num _ => rfl
  | .str _ => rfl
  | .arr xs => by
    simp only [stripUndef, undefFree, undefFreeElems_stripUndef xs]
  | .obj fs => by
    simp only [stripUndef, undefFree, undefFreeFields_stripUndef fs]

theorem undefFreeElems_stripUndef : ∀ xs : List JVal,
    undefFreeElems (stripUndefElems xs) = true
  | [] => rfl
  | v :: xs => by
    simp only [stripUndefElems, undefFreeElems, undefFree_stripUndef v,
      undefFreeElems_stripUndef xs, Bool.and_self]

theorem undefFreeFields_stripUndef : ∀ fs : List (String × JVal),
    undefFreeFields (stripUndefFields fs) = true
  | [] => rfl
  | (k, v) :: fs => by
    by_cases hv : isUndef v = true
    · rw [show stripUndefFields ((k, v) :: fs) = stripUndefFields fs from by
          simp [stripUndefFields, hv],
        undefFreeFields_stripUndef fs]
    · have hv2 : isUndef v = false := by simpa using hv
      rw [show stripUndefFields ((k, v) :: fs) = (k, stripUndef v) :: stripUndefFields fs from by
          simp [stripUndefFields, hv2]]
      simp only [undefFreeFields, undefFree_stripUndef v,
        undefFreeFields_stripUndef fs, Bool.and_self]

end

theorem tailOK_nil : tailOK [] := fun _ hc => Option.noConfusion hc

/-- Equal serializations force equal stripped values: the canonical byte
string determines the workflow up to the undefined/null identification. -/
theorem stripUndef_eq_of_ser_eq {v w : JVal} (h : ser v = ser w) :
    stripUndef v = stripUndef w := by
  have h2 : ser (stripUndef v) ++ [] = ser (stripUndef w) ++ [] := by
    rw [List.append_nil, List.append_nil, ser_stripUndef, ser_stripUndef, h]
  exact (serExt (stripUndef v) (stripUndef w) [] [] (undefFree_stripUndef v)
    (undefFree_stripUndef w) tailOK_nil tailOK_nil h2).1

theorem stripUndefElems_eq_map : ∀ xs : List JVal,
    stripUndefElems xs = xs.map stripUndef
  | [] => rfl
  | v :: xs => by simp only [stripUndefElems, List.map_cons, stripUndefElems_eq_map xs]

theorem hashInput_eq_imp {a b : JVal} (h : hashInput a = hashInput b) :
    stripUndef (normalizeWorkflowForHash a) = stripUndef (normalizeWorkflowForHash b) := by
  have hda : ser (normalizeWorkflowForHash a) = ser (normalizeWorkflowForHash b) :=
    congrArg String.data h
  exact stripUndef_eq_of_ser_eq hda

/-- The stripped canonical workflow, component by component. -/
theorem stripNorm (d : JVal) :
    stripUndef (normalizeWorkflowForHash d) =
      .obj [("nodes", .arr (stripUndefElems
              (List.insertionSort nodeR ((nodesOf d).map canonNode)))),
            ("edges", .arr (stripUndefElems
              (List.insertionSort edgeR ((edgesOf d).map (canonEdge (nodesOf d))))))] := rfl

/-- Replacing one node by one with a different stripped canonical form changes
the sorted, stripped canonical node list, whatever the sort does: a
multiset-count argument. -/
theorem sortedStrippedNodes_ne (pre post : List JVal) {n₁ n₂ : JVal}
    (hne : stripUndef (canonNode n₁) ≠ stripUndef (canonNode n₂)) :
    stripUndefElems (List.insertionSort nodeR ((pre ++ n₁ :: post).map canonNode)) ≠
    stripUndefElems (List.insertionSort nodeR ((pre ++ n₂ :: post).map canonNode)) := by
  intro heq
  rw [stripUndefElems_eq_map, stripUndefElems_eq_map] at heq
  have p₁ := (List.perm_insertionSort nodeR ((pre ++ n₁ :: post).map canonNode)).map stripUndef
  have p₂ := (List.perm_insertionSort nodeR ((pre ++ n₂ :: post).map canonNode)).map stripUndef
  have pp : (((pre ++ n₁ :: post).map canonNode).map stripUndef).Perm
      (((pre ++ n₂ :: post).map canonNode).map stripUndef) := by
    refine p₁.symm.trans ?_
    rw [heq]
    exact p₂
  have hc := pp.count_eq (stripUndef (canonNode n₂))
  simp only [List.map_append, List.map_cons] at hc
  rw [List.count_append, List.count_append,
    List.count_cons_of_ne (show stripUndef (canonNode n₂) ≠ stripUndef (canonNode n₁) from
      fun hcc => hne hcc.symm),
    List.count_cons_self] at hc
  omega

theorem hashInput_ne_nodes (pre post es es2 : List JVal) {n₁ n₂ : JVal}
    (hne : stripUndef (canonNode n₁) ≠ stripUndef (canonNode n₂)) :
    hashInput (mkDoc (pre ++ n₁ :: post) es) ≠ hashInput (mkDoc (pre ++ n₂ :: post) es2) := by
  intro h
  have hs := hashInput_eq_imp h
  rw [stripNorm, stripNorm] at hs
  simp only [nodesOf_mkDoc, edgesOf_mkDoc, JVal.obj.injEq, List.cons.injEq,
    Prod.mk.injEq, JVal.arr.injEq, true_and, and_true] at hs
  exact sortedStrippedNodes_ne pre post hne hs.1

theorem hashInput_ne_edgeAdded (ns es : List JVal) (e : JVal) :
    hashInput (mkDoc ns es) ≠ hashInput (mkDoc ns (es ++ [e])) := by
  intro h
  have hs := hashInput_eq_imp h
  rw [stripNorm, stripNorm] at hs
  simp only [nodesOf_mkDoc, edgesOf_mkDoc, JVal.obj.injEq, List.cons.injEq,
    Prod.mk.injEq, JVal.arr.injEq, true_and, and_true] at hs
  have hlen := congrArg List.length hs
  rw [stripUndefElems_eq_map, stripUndefElems_eq_map, List.length_map, List.length_map,
    (List.perm_insertionSort edgeR (es.map (canonEdge ns))).length_eq,
    (List.perm_insertionSort edgeR ((es ++ [e]).map (canonEdge ns))).length_eq] at hlen
  simp only [List.length_map, List.length_append, List.length_cons, List.length_nil] at hlen
  omega

theorem isUndef_eq_false_of_keepVal {v : JVal} (h : keepVal v = true) : isUndef v = false := by
  cases v <;> first | rfl | (simp [keepVal] at h)

theorem stripUndefFields_append : ∀ (a b : List (String × JVal)),
    stripUndefFields (a ++ b) = stripUndefFields a ++ stripUndefFields b
  | [], _ => rfl
  | (k, v) :: a, b => by
    by_cases hv : isUndef v = true
    · rw [List.cons_append,
        show stripUndefFields ((k, v) :: (a ++ b)) = stripUndefFields (a ++ b) from by
          simp [stripUndefFields, hv],
        show stripUndefFields ((k, v) :: a) = stripUndefFields a from by
          simp [stripUndefFields, hv],
        stripUndefFields_append a b]
    · have hv2 : isUndef v = false := by simpa using hv
      rw [List.cons_append,
        show stripUndefFields ((k, v) :: (a ++ b))
            = (k, stripUndef v) :: stripUndefFields (a ++ b) from by
          simp [stripUndefFields, hv2],
        show stripUndefFields ((k, v) :: a) = (k, stripUndef v) :: stripUndefFields a from by
          simp [stripUndefFields, hv2],
        stripUndefFields_append a b, List.cons_append]

theorem filterEntries_append (a b : List (String × JVal)) :
    filterEntries (a ++ b) = filterEntries a ++ filterEntries b := by
  simp [filterEntries, List.filter_append]

theorem filterEntries_cons_keep {key : String} {v : JVal} (rest : List (String × JVal))
    (hk : ignoreKeys.contains key = false) (hv : keepVal v = true) :
    filterEntries ((key, v) :: rest) = (key, v) :: filterEntries rest := by
  unfold filterEntries
  have hmem : key ∉ ignoreKeys := by simpa using hk
  rw [List.filter_cons, if_pos (by simp [hmem, hv])]

/-- A node whose type property is a different string has a different stripped
canonical form, whatever its data. -/
theorem canonNode_strip_ne_of_type {n₁ n₂ : JVal} {a b : String}
    (h₁ : getField n₁ ("type") = .str a) (h₂ : getField n₂ ("type") = .str b)
    (hab : a ≠ b) : stripUndef (canonNode n₁) ≠ stripUndef (canonNode n₂) := by
  intro he
  unfold canonNode at he
  rw [h₁, h₂] at he
  have h3 : JVal.str a = JVal.str b := congrArg (fun v => getField v ("type")) he
  injection h3 with hh
  exact hab hh

/-- Changing the retained value at one retained data key changes the stripped
canonical node, even though other cosmetic parts may differ. -/
theorem canonNode_strip_ne_of_entry {n₁ n₂ : JVal} {key : String} {v₁ v₂ : JVal}
    {ds ds2 : List (String × JVal)}
    (ht : getField n₁ ("type") = getField n₂ ("type"))
    (h₁ : entriesOf (dataEff n₁) = ds ++ (key, v₁) :: ds2)
    (h₂ : entriesOf (dataEff n₂) = ds ++ (key, v₂) :: ds2)
    (hk : ignoreKeys.contains key = false)
    (hv₁ : keepVal v₁ = true) (hv₂ : keepVal v₂ = true)
    (hne : stripUndef v₁ ≠ stripUndef v₂) :
    stripUndef (canonNode n₁) ≠ stripUndef (canonNode n₂) := by
  intro he
  have e₁ : filterEntries (entriesOf (dataEff n₁))
      = filterEntries ds ++ (key, v₁) :: filterEntries ds2 := by
    rw [h₁, filterEntries_append, filterEntries_cons_keep ds2 hk hv₁]
  have e₂ : filterEntries (entriesOf (dataEff n₂))
      = filterEntries ds ++ (key, v₂) :: filterEntries ds2 := by
    rw [h₂, filterEntries_append, filterEntries_cons_keep ds2 hk hv₂]
  unfold canonNode normalizeNodeData at he
  rw [ht, e₁, e₂] at he
  simp only [stripUndef] at he
  have hcore : stripUndefFields (filterEntries ds ++ (key, v₁) :: filterEntries ds2)
      = stripUndefFields (filterEntries ds ++ (key, v₂) :: filterEntries ds2) → False := by
    intro hq
    rw [stripUndefFields_append, stripUndefFields_append,
      show stripUndefFields ((key, v₁) :: filterEntries ds2)
          = (key, stripUndef v₁) :: stripUndefFields (filterEntries ds2) from by
        simp [stripUndefFields, isUndef_eq_false_of_keepVal hv₁],
      show stripUndefFields ((key, v₂) :: filterEntries ds2)
          = (key, stripUndef v₂) :: stripUndefFields (filterEntries ds2) from by
        simp [stripUndefFields, isUndef_eq_false_of_keepVal hv₂]] at hq
    have hq2 := List.append_cancel_left hq
    simp only [List.cons.injEq, Prod.mk.injEq, true_and] at hq2
    exact hne hq2.1
  by_cases hti : isUndef (getField n₂ ("type")) = true
  · simp only [show ∀ L : List (String × JVal),
        stripUndefFields [("type", getField n₂ ("type")), ("data", JVal.obj L)]
          = [("data", JVal.obj (stripUndefFields L))] from fun L => by
          simp [stripUndefFields, stripUndef, hti,
            show isUndef (JVal.obj L) = false from rfl]] at he
    simp only [JVal.obj.injEq, List.cons.injEq, Prod.mk.injEq, JVal.arr.injEq,
      true_and, and_true] at he
    exact hcore he
  · have hti2 : isUndef (getField n₂ ("type")) = false := by simpa using hti
    simp only [show ∀ L : List (String × JVal),
        stripUndefFields [("type", getField n₂ ("type")), ("data", JVal.obj L)]
          = [("type", stripUndef (getField n₂ ("type"))),
             ("data", JVal.obj (stripUndefFields L))] from fun L => by
          simp [stripUndefFields, stripUndef, hti2,
            show isUndef (JVal.obj L) = false from rfl]] at he
    simp only [JVal.obj.injEq, List.cons.injEq, Prod.mk.injEq, JVal.arr.injEq,
      true_and, and_true] at he
    exact hcore he

/-- C5: sensitivity of the canonical serialization.  Changing one node's type
string, adding (equivalently, removing) an edge, or changing the value of one
retained, non-cosmetic data entry between two values the canonicalizer keeps
and the serializer distinguishes, always changes the byte string that is
hashed.  The exclusions are necessary: values the canonicalizer drops
(undefined, null, the empty string) can change into one another without moving
the fingerprint, as the counterexample shows. -/
theorem c5_sensitivity :
    (∀ (pre post es : List JVal) (n₁ n₂ : JVal) (a b : String),
      getField n₁ ("type") = .str a → getField n₂ ("type") = .str b → a ≠ b →
      hashInput (mkDoc (pre ++ n₁ :: post) es) ≠ hashInput (mkDoc (pre ++ n₂ :: post) es)) ∧
    (∀ (ns es : List JVal) (e : JVal),
      hashInput (mkDoc ns es) ≠ hashInput (mkDoc ns (es ++ [e]))) ∧
    (∀ (pre post es : List JVal) (n₁ n₂ : JVal) (key : String) (v₁ v₂ : JVal)
      (ds ds2 : List (String × JVal)),
      getField n₁ ("type") = getField n₂ ("type") →
      entriesOf (dataEff n₁) = ds ++ (key, v₁) :: ds2 →
      entriesOf (dataEff n₂) = ds ++ (key, v₂) :: ds2 →
      ignoreKeys.contains key = false →
      keepVal v₁ = true → keepVal v₂ = true →
      stripUndef v₁ ≠ stripUndef v₂ →
      hashInput (mkDoc (pre ++ n₁ :: post) es) ≠ hashInput (mkDoc (pre ++ n₂ :: post) es)) := by
  refine ⟨?_, hashInput_ne_edgeAdded, ?_⟩
  · intro pre post es n₁ n₂ a b h₁ h₂ hab
    exact hashInput_ne_nodes pre post es es (canonNode_strip_ne_of_type h₁ h₂ hab)
  · intro pre post es n₁ n₂ key v₁ v₂ ds ds2 ht h₁ h₂ hk hv₁ hv₂ hne
    exact hashInput_ne_nodes pre post es es
      (canonNode_strip_ne_of_entry ht h₁ h₂ hk hv₁ hv₂ hne)

/-- Witness for c5_sensitivity: a type change, an added self edge, and a url
value change each move the canonical serialization of a concrete document. -/
theorem c5_sensitivity_witness :
    hashInput (mkDoc ([] ++ cexDupA :: []) []) ≠ hashInput (mkDoc ([] ++ cexDupB :: []) []) ∧
    hashInput (mkDoc [okNode] []) ≠ hashInput (mkDoc [okNode] ([] ++ [cexSelfEdge])) ∧
    hashInput (mkDoc ([] ++ dataNode "x" :: []) []) ≠
      hashInput (mkDoc ([] ++ dataNode "y" :: []) []) :=
  ⟨c5_sensitivity.1 [] [] [] cexDupA cexDupB "open_page" "click_element" rfl rfl (by decide),
   c5_sensitivity.2.1 [okNode] [] cexSelfEdge,
   c5_sensitivity.2.2 [] [] [] (dataNode "x") (dataNode "y") "u" (.str "x") (.str "y") [] []
     rfl rfl rfl (by decide) (by decide) (by decide) (by decide)⟩

/-- Counterexample to the claim as worded: both documents are valid, they
differ exactly in the value of the non-cosmetic data field url (empty string
versus null), yet the canonical serialization is unchanged, because
normalizeNodeData drops both values. -/
theorem c5_sensitivity_cex :
    validateWorkflowContent cexEmptyValDoc = .pass 1 ∧
    validateWorkflowContent cexNullValDoc = .pass 1 ∧
    cexEmptyValDoc ≠ cexNullValDoc ∧
    hashInput cexEmptyValDoc = hashInput cexNullValDoc := by
  exact ⟨by decide, by decide, by decide, by decide⟩
